import Mathlib

/-!
Verification of the AVL tree core of the c-language-data-structures
repository.

The development shallowly embeds the two AVL variants of the repository:

* the macro-generated variant of src/macros_data_structs/src/m_avl.h
  (functions named after the ID##_mavl_* family), which represents an
  absent child by a shared nil sentinel node, and
* the void-pointer variant whose translation unit is embedded in
  src/src/include/priQueueUtils.h (scl_avl_tree.c: avl_insert,
  create_avl_node, ...), which represents an absent child by NULL and an
  absent payload by a NULL data pointer.

Pointer-linked heap nodes are modelled as an inductive value tree.  The
parent back-references of the C nodes are kept mutually inverse with the
child links by every routine of the source (rotations, the two-children
swap, splicing and insertion all re-establish them), so the ancestor
chain of a node coincides with the root-to-node descent path; iterative
parent-pointer ascents are therefore embedded as folds over that path,
and the bottom-up fixup loops as fixups applied on the return path of
the descent recursion, with the source's revisit-after-rotation step
(the loop variable moves to the rotated subtree's new root before
ascending further) reproduced by an explicitly fuelled inner loop.

Reading the nil sentinel's uninitialised data field (which mavl_min,
mavl_max, mavl_pred and mavl_succ can do) is modelled as the value
none : Option.
-/

namespace CLangDS

/-- Result codes of the repository (m_config.h merr_t, together with the
codes that m_avl.h returns). -/
inductive Merr : Type where
  | M_OK
  | M_MUST_BE_NULL
  | M_MALLOC_FAILED
  | M_FREE_NULL
  | M_NULL_INPUT
  | M_NOT_FOUND
  | M_POP_FROM_EMPTY
  | M_IDX_OVERFLOW
  | M_NULL_ACTION
  | M_INVALID_INPUT
  | M_EMPTY_STRUCTURE
  | M_UNDEFINED_BEHAVIOUR
  deriving DecidableEq, Repr

/-- A node of the macro AVL variant: payload, duplicate count and stored
height, with the two owned subtrees; the shared nil sentinel is the nil
constructor, and parent pointers are implicit (see the file comment). -/
inductive MTree (α : Type) : Type where
  | nil : MTree α
  | node (left : MTree α) (data : α) (count : Nat) (height : Nat)
      (right : MTree α) : MTree α
  deriving DecidableEq, Repr

namespace MTree

variable {α : Type}

/-- The stored height field; the nil sentinel's height field is 0. -/
def heightOf : MTree α → Nat
  | nil => 0
  | node _ _ _ h _ => h

/-- Number of nodes of a tree. -/
def nodeCount : MTree α → Nat
  | nil => 0
  | node l _ _ _ r => nodeCount l + nodeCount r + 1

/-- In-order list of (payload, count) pairs. -/
def inordC : MTree α → List (α × Nat)
  | nil => []
  | node l d c _ r => inordC l ++ (d, c) :: inordC r

/-- In-order list of payloads. -/
def inord (t : MTree α) : List α := (inordC t).map Prod.fst

end MTree

open MTree

/-- ID##_internal_mavl_upheight: recompute the stored height of the root
from the stored heights of its children; nothing happens on nil. -/
def upheight {α : Type} : MTree α → MTree α
  | .nil => .nil
  | .node l d c _ r => .node l d c (max (heightOf l) (heightOf r) + 1) r

/-- ID##_internal_mavl_balance: difference of the children's stored
heights; on the nil sentinel both children are the sentinel itself, of
height 0, so the balance is 0. -/
def mavlBalance {α : Type} : MTree α → Int
  | .nil => 0
  | .node l _ _ _ r => (heightOf l : Int) - (heightOf r : Int)

/-- ID##_internal_mavl_rotl: left rotation at the root.  Returns the
input unchanged when the root or its right child is the sentinel,
exactly as the guard of the source does.  The source re-links the new
subtree root to the old parent by re-comparing keys; under the BST order
invariant (which holds in every execution the theorems below consider)
that re-link lands on the side the rotated subtree already occupied, so
the value embedding plugs the result into the surrounding context by
position. -/
def mavlRotl {α : Type} : MTree α → MTree α
  | .node l d c h (.node rl rd rc rh rr) =>
      upheight (.node (upheight (.node l d c h rl)) rd rc rh rr)
  | t => t

/-- ID##_internal_mavl_rotr: right rotation at the root, mirror of
mavlRotl. -/
def mavlRotr {α : Type} : MTree α → MTree α
  | .node (.node ll ld lc lh lr) d c h r =>
      upheight (.node ll ld lc lh (upheight (.node lr d c h r)))
  | t => t

/-- One iteration of the ID##_internal_mavl_push_fix loop body at the
focused node: recompute the height, read the three balance factors once,
and apply the matching insertion rotation case; the four source cases
are guarded by mutually exclusive conditions on the values read before
any rotation, so the if-chain reproduces the source's sequence of
independent ifs.  The returned flag records whether a rotation happened,
in which case the loop revisits the new subtree root. -/
def pushFixBody {α : Type} (t : MTree α) : MTree α × Bool :=
  match upheight t with
  | .nil => (.nil, false)
  | .node l d c h r =>
      let bf := mavlBalance (.node l d c h r)
      let lbf := mavlBalance l
      let rbf := mavlBalance r
      if bf = 2 ∧ lbf = 1 then (mavlRotr (.node l d c h r), true)
      else if bf = -2 ∧ rbf = -1 then (mavlRotl (.node l d c h r), true)
      else if bf = 2 ∧ lbf = -1 then
        (mavlRotr (.node (mavlRotl l) d c h r), true)
      else if bf = -2 ∧ rbf = 1 then
        (mavlRotl (.node l d c h (mavlRotr r)), true)
      else (.node l d c h r, false)

/-- One iteration of the ID##_internal_mavl_pop_fix loop body; same
structure as pushFixBody with the deletion thresholds of the source. -/
def popFixBody {α : Type} (t : MTree α) : MTree α × Bool :=
  match upheight t with
  | .nil => (.nil, false)
  | .node l d c h r =>
      let bf := mavlBalance (.node l d c h r)
      let lbf := mavlBalance l
      let rbf := mavlBalance r
      if bf > 1 ∧ lbf ≥ 0 then (mavlRotr (.node l d c h r), true)
      else if bf < -1 ∧ rbf ≤ 0 then (mavlRotl (.node l d c h r), true)
      else if bf > 1 ∧ lbf < 0 then
        (mavlRotr (.node (mavlRotl l) d c h r), true)
      else if bf < -1 ∧ rbf > 0 then
        (mavlRotl (.node l d c h (mavlRotr r)), true)
      else (.node l d c h r, false)

/-- The fix loops of the source ascend through parent pointers; after a
rotation the loop variable lands on the rotated subtree's new root, so
the same tree level is visited again before the ascent continues.  This
function runs the loop body at one level until no rotation fires.  The
fuel bounds the revisits; in every execution the theorems below reach,
the body rotates at most once per level, so fuel at least 2 reproduces
the source loop exactly. -/
def fixAtLevel {β : Type} (body : β → β × Bool) : Nat → β → β
  | 0, t => t
  | fuel + 1, t =>
      match body t with
      | (t', false) => t'
      | (t', true) => fixAtLevel body fuel t'

/-- The insert fixup applied at one ancestor level. -/
def pushFixLevel {α : Type} (t : MTree α) : MTree α :=
  fixAtLevel pushFixBody (nodeCount t + 1) t

/-- The delete fixup applied at one ancestor level. -/
def popFixLevel {α : Type} (t : MTree α) : MTree α :=
  fixAtLevel popFixBody (nodeCount t + 1) t

/-- Outcome of the descent of ID##_mavl_push. -/
inductive PushOut : Type where
  | attached
  | dup
  | allocFail
  deriving DecidableEq, Repr

/-- The descent and fixup of ID##_mavl_push on the root subtree.  The
source descends iteratively (left when cmp(node, x) >= 1, right when
<= -1, stop on equality, incrementing the uint32_t count, which wraps
modulo 2 ^ 32), attaches a fresh node of
count 1 and height 1 at the nil reached (the attach side is decided by
the same comparison the descent used), and then runs push_fix from the
new node's parent up to the root; the embedding runs that ascent on the
return path of the recursion.  allocOk models whether the node
allocation of ID##_internal_mavl_node succeeds. -/
def mavlPushGo {α : Type} (cmp : α → α → Int) (allocOk : Bool) :
    MTree α → α → MTree α × PushOut
  | .nil, x =>
      if allocOk then (.node .nil x 1 1 .nil, .attached) else (.nil, .allocFail)
  | .node l d c h r, x =>
      if 1 ≤ cmp d x then
        match mavlPushGo cmp allocOk l x with
        | (l', .attached) => (pushFixLevel (.node l' d c h r), .attached)
        | (l', o) => (.node l' d c h r, o)
      else if cmp d x ≤ -1 then
        match mavlPushGo cmp allocOk r x with
        | (r', .attached) => (pushFixLevel (.node l d c h r'), .attached)
        | (r', o) => (.node l d c h r', o)
      else (.node l d ((c + 1) % 2 ^ 32) h r, .dup)

/-- The mavl_t structure: owned root and distinct-key size (the
comparator and destructor of the struct are passed separately / not
resource-modelled). -/
structure MAvl (α : Type) : Type where
  root : MTree α
  size : Nat
  deriving DecidableEq, Repr

/-- ID##_mavl (tree construction): empty root, size 0. -/
def mavlNew {α : Type} : MAvl α := ⟨.nil, 0⟩

/-- ID##_mavl_push on a non-NULL tree handle.  On a duplicate the count
is incremented and M_OK returned with no fixup and no size change; on
allocation failure the tree is returned untouched with M_MALLOC_FAILED,
exactly as the source returns before linking anything; otherwise the new
node is attached, the fixup has run, and size is incremented. -/
def mavlPush {α : Type} (cmp : α → α → Int) (allocOk : Bool)
    (self : MAvl α) (x : α) : MAvl α × Merr :=
  match mavlPushGo cmp allocOk self.root x with
  | (t, .attached) => (⟨t, self.size + 1⟩, .M_OK)
  | (t, .dup) => (⟨t, self.size⟩, .M_OK)
  | (_, .allocFail) => (self, .M_MALLOC_FAILED)

/-- ID##_internal_mavl_find_node: iterative descent, right when
cmp(node, x) <= -1, left when >= 1, stop on the node otherwise; returns
the nil sentinel when the key is absent. -/
def mavlFindNode {α : Type} (cmp : α → α → Int) : MTree α → α → MTree α
  | .nil, _ => .nil
  | .node l d c h r, x =>
      if cmp d x ≤ -1 then mavlFindNode cmp r x
      else if 1 ≤ cmp d x then mavlFindNode cmp l x
      else .node l d c h r

/-- ID##_mavl_find on a non-NULL tree with a non-NULL accumulator:
M_NOT_FOUND on a miss, otherwise M_OK with the found node's payload. -/
def mavlFind {α : Type} (cmp : α → α → Int) (t : MTree α) (x : α) :
    Merr × Option α :=
  match mavlFindNode cmp t x with
  | .nil => (.M_NOT_FOUND, none)
  | .node _ d _ _ _ => (.M_OK, some d)

/-- ID##_internal_mavl_min_node: follow left children. -/
def mavlMinNode {α : Type} : MTree α → MTree α
  | .nil => .nil
  | .node .nil d c h r => .node .nil d c h r
  | .node (.node ll ld lc lh lr) _ _ _ _ => mavlMinNode (.node ll ld lc lh lr)

/-- ID##_internal_mavl_max_node: follow right children. -/
def mavlMaxNode {α : Type} : MTree α → MTree α
  | .nil => .nil
  | .node l d c h .nil => .node l d c h .nil
  | .node _ _ _ _ (.node rl rd rc rh rr) => mavlMaxNode (.node rl rd rc rh rr)

/-- Payload of a node; reading the nil sentinel's uninitialised data
field is the value none. -/
def dataOf {α : Type} : MTree α → Option α
  | .nil => none
  | .node _ d _ _ _ => some d

/-- ID##_mavl_min on non-NULL tree and accumulator: the accumulator
receives the data field of the minimum node of the subtree that
find_node located (the nil sentinel's indeterminate data when the key is
absent or the tree empty), and the result is always M_OK. -/
def mavlMin {α : Type} (cmp : α → α → Int) (t : MTree α) (x : α) :
    Merr × Option α :=
  (.M_OK, dataOf (mavlMinNode (mavlFindNode cmp t x)))

/-- ID##_mavl_max, mirror of mavlMin. -/
def mavlMax {α : Type} (cmp : α → α → Int) (t : MTree α) (x : α) :
    Merr × Option α :=
  (.M_OK, dataOf (mavlMaxNode (mavlFindNode cmp t x)))

/-- Direction taken at one step of a descent. -/
inductive Dir : Type where
  | left
  | right
  deriving DecidableEq, Repr

/-- Descent of ID##_internal_mavl_find_node that also records the
ancestors passed, deepest first, with the direction taken from each;
this list is the parent chain of the located node (see the file
comment on parent back-references). -/
def mavlFindPath {α : Type} (cmp : α → α → Int) :
    MTree α → α → List (α × Dir) → List (α × Dir) × MTree α
  | .nil, _, acc => (acc, .nil)
  | .node l d c h r, x, acc =>
      if cmp d x ≤ -1 then mavlFindPath cmp r x ((d, .right) :: acc)
      else if 1 ≤ cmp d x then mavlFindPath cmp l x ((d, .left) :: acc)
      else (acc, .node l d c h r)

/-- The parent-pointer ascent of ID##_mavl_pred: ascend while the
current node is a left child; the answer is the first ancestor reached
through a right step, and the nil sentinel's indeterminate data (none)
when the chain is exhausted. -/
def ascendPred {α : Type} : List (α × Dir) → Option α
  | [] => none
  | (a, .right) :: _ => some a
  | (_, .left) :: rest => ascendPred rest

/-- The parent-pointer ascent of ID##_mavl_succ, mirror of
ascendPred. -/
def ascendSucc {α : Type} : List (α × Dir) → Option α
  | [] => none
  | (a, .left) :: _ => some a
  | (_, .right) :: rest => ascendSucc rest

/-- ID##_mavl_pred on non-NULL tree and accumulator: M_INVALID_INPUT
when the key is absent; otherwise the maximum of the left subtree when
it exists, else the parent-pointer ascent. -/
def mavlPred {α : Type} (cmp : α → α → Int) (t : MTree α) (x : α) :
    Merr × Option α :=
  match mavlFindPath cmp t x [] with
  | (_, .nil) => (.M_INVALID_INPUT, none)
  | (path, .node l _ _ _ _) =>
      match l with
      | .node ll ld lc lh lr =>
          (.M_OK, dataOf (mavlMaxNode (.node ll ld lc lh lr)))
      | .nil => (.M_OK, ascendPred path)

/-- ID##_mavl_succ, mirror of mavlPred. -/
def mavlSucc {α : Type} (cmp : α → α → Int) (t : MTree α) (x : α) :
    Merr × Option α :=
  match mavlFindPath cmp t x [] with
  | (_, .nil) => (.M_INVALID_INPUT, none)
  | (path, .node _ _ _ _ r) =>
      match r with
      | .node rl rd rc rh rr =>
          (.M_OK, dataOf (mavlMinNode (.node rl rd rc rh rr)))
      | .nil => (.M_OK, ascendSucc path)

/-- The answer-selection tail of ID##_mavl_pred once the node is
located: the maximum of the left subtree when one exists, else the
parent-pointer ascent along the recorded path. -/
def predPart {α : Type} : MTree α → List (α × Dir) → Option α
  | .nil, _ => none
  | .node l _ _ _ _, path =>
      match l with
      | .node ll ld lc lh lr => dataOf (mavlMaxNode (.node ll ld lc lh lr))
      | .nil => ascendPred path

/-- The answer-selection tail of ID##_mavl_succ, mirror of predPart. -/
def succPart {α : Type} : MTree α → List (α × Dir) → Option α
  | .nil, _ => none
  | .node _ _ _ _ r, path =>
      match r with
      | .node rl rd rc rh rr => dataOf (mavlMinNode (.node rl rd rc rh rr))
      | .nil => ascendSucc path

/-- The descent loop of ID##_mavl_lca: left while both keys compare
less, right while both compare greater, stop and answer at the first
node where they diverge; falling off the tree is the defensive
M_UNDEFINED_BEHAVIOUR branch. -/
def mavlLcaLoop {α : Type} (cmp : α → α → Int) (a b : α) :
    MTree α → Merr × Option α
  | .nil => (.M_UNDEFINED_BEHAVIOUR, none)
  | .node l d _ _ r =>
      if 1 ≤ cmp d a ∧ 1 ≤ cmp d b then mavlLcaLoop cmp a b l
      else if cmp d a ≤ -1 ∧ cmp d b ≤ -1 then mavlLcaLoop cmp a b r
      else (.M_OK, some d)

/-- ID##_mavl_lca on non-NULL tree and accumulator: M_INVALID_INPUT when
either key is absent, otherwise the descent loop. -/
def mavlLca {α : Type} [DecidableEq α] (cmp : α → α → Int) (t : MTree α)
    (a b : α) :
    Merr × Option α :=
  if mavlFindNode cmp t a = .nil ∨ mavlFindNode cmp t b = .nil then
    (.M_INVALID_INPUT, none)
  else mavlLcaLoop cmp a b t

/-- Removal of the minimum node of a nonempty subtree during
ID##_mavl_pop.  After ID##_internal_mavl_swap the node to delete
occupies the position of the minimum of the right subtree, carrying its
own data, count and height fields (the swap exchanges only the link
fields of the two node objects, so the data, count and height fields
travel with their nodes); the splice then replaces that position by its
right child, and pop_fix ascends from the removed node's former parent.
This function returns the (data, count, height) triple that the swap
moves to the deleted position and the subtree after splice with the
fixup applied at every level above the splice point. -/
def mavlPopMin {α : Type} : MTree α → Option ((α × Nat × Nat) × MTree α)
  | .nil => none
  | .node .nil d c h r => some ((d, c, h), r)
  | .node (.node ll ld lc lh lr) d c h r =>
      match mavlPopMin (.node ll ld lc lh lr) with
      | some (info, l') => some (info, popFixLevel (.node l' d c h r))
      | none => none

/-- Removal at the located node of ID##_mavl_pop.  Two children: swap
with the minimum of the right subtree (the deleted position then has no
left child, so at most one further splice happens), splice it out and
fix from its former parent upward through this node; the node at this
position now carries the successor's data, count and stale height field,
which pop_fix recomputes.  At most one child: splice the child (or nil)
into this position, the fixup starting only at the parent level. -/
def mavlRemoveHere {α : Type} : MTree α → MTree α
  | .nil => .nil
  | .node .nil _ _ _ r => r
  | .node (.node ll ld lc lh lr) _ _ _ .nil => .node ll ld lc lh lr
  | .node (.node ll ld lc lh lr) _ _ _ (.node rl rd rc rh rr) =>
      match mavlPopMin (.node rl rd rc rh rr) with
      | some ((sd, sc, sh), r') =>
          popFixLevel (.node (.node ll ld lc lh lr) sd sc sh r')
      | none => .nil

/-- Descent of ID##_mavl_pop to the node to delete (the same comparisons
as find_node), with pop_fix applied at every ancestor on the return
path; none when the key is absent. -/
def mavlPopGo {α : Type} (cmp : α → α → Int) (x : α) :
    MTree α → Option (MTree α)
  | .nil => none
  | .node l d c h r =>
      if cmp d x ≤ -1 then
        match mavlPopGo cmp x r with
        | some r' => some (popFixLevel (.node l d c h r'))
        | none => none
      else if 1 ≤ cmp d x then
        match mavlPopGo cmp x l with
        | some l' => some (popFixLevel (.node l' d c h r))
        | none => none
      else some (mavlRemoveHere (.node l d c h r))

/-- ID##_mavl_pop on a non-NULL tree handle: M_POP_FROM_EMPTY when the
root is the sentinel, M_INVALID_INPUT when find_node misses (tree
untouched), otherwise the removal with fixup and a size decrement. -/
def mavlPop {α : Type} (cmp : α → α → Int) (self : MAvl α) (x : α) :
    MAvl α × Merr :=
  match self.root with
  | .nil => (self, .M_POP_FROM_EMPTY)
  | .node l d c h r =>
      match mavlPopGo cmp x (.node l d c h r) with
      | none => (self, .M_INVALID_INPUT)
      | some t => (⟨t, self.size - 1⟩, .M_OK)

/-- One operation of the public mutating API of the macro variant. -/
inductive MOp (α : Type) : Type where
  | push (x : α) (allocOk : Bool)
  | pop (x : α)
  deriving DecidableEq, Repr

/-- Apply one operation, discarding the result code. -/
def mavlStep {α : Type} (cmp : α → α → Int) (self : MAvl α) :
    MOp α → MAvl α
  | .push x allocOk => (mavlPush cmp allocOk self x).1
  | .pop x => (mavlPop cmp self x).1

/-- A tree built from the empty tree by a finite sequence of push and
pop operations. -/
def mavlRun {α : Type} (cmp : α → α → Int) (ops : List (MOp α)) : MAvl α :=
  ops.foldl (mavlStep cmp) mavlNew

/-- Every payload of the tree satisfies p. -/
def allb {α : Type} (p : α → Bool) : MTree α → Bool
  | .nil => true
  | .node l d _ _ r => allb p l && p d && allb p r

/-- The BST order invariant of the spec: at every node, all
left-descendant payloads compare less and all right-descendant payloads
compare greater. -/
def ordb {α : Type} [LinearOrder α] : MTree α → Bool
  | .nil => true
  | .node l d _ _ r =>
      ordb l && ordb r && allb (fun y => decide (y < d)) l &&
        allb (fun y => decide (d < y)) r

/-- Height consistency: every stored height field equals 1 plus the
maximum of the children's stored heights, an absent child counting 0. -/
def hokb {α : Type} : MTree α → Bool
  | .nil => true
  | .node l _ _ h r =>
      hokb l && hokb r && decide (h = max (heightOf l) (heightOf r) + 1)

/-- The AVL balance invariant: at every node the stored heights of the
two children differ by at most one. -/
def balb {α : Type} : MTree α → Bool
  | .nil => true
  | .node l _ _ _ r =>
      balb l && balb r &&
        decide ((heightOf l : Int) - (heightOf r : Int) ≤ 1 ∧
          (heightOf r : Int) - (heightOf l : Int) ≤ 1)

/-- All three invariants of the data model at once. -/
def wfb {α : Type} [LinearOrder α] (t : MTree α) : Bool :=
  ordb t && hokb t && balb t

/-- A valid comparator for a linear order: the sign conventions the
source relies on (>= 1 means the first argument is greater, <= -1 means
it is smaller, anything else means equality). -/
structure ValidCmp {α : Type} [LinearOrder α] (cmp : α → α → Int) :
    Prop where
  le_neg : ∀ a b, (cmp a b ≤ -1) = (a < b)
  ge_pos : ∀ a b, (1 ≤ cmp a b) = (b < a)

/-- The canonical valid comparator on integers, as an instantiation
would supply it (compare_int of the repository's function library). -/
def intCmp : Int → Int → Int :=
  fun a b => if a < b then -1 else if b < a then 1 else 0

/-- Ancestor list of a key: the payloads on the root-to-node descent
path, root first, the located node included.  Modelled from the spec:
the reference LCA computation is by ancestor-set intersection, and in a
tree the ancestors of a present key are exactly the nodes the find
descent passes. -/
def ancList {α : Type} (cmp : α → α → Int) : MTree α → α → List α
  | .nil, _ => []
  | .node l d _ _ r, x =>
      if cmp d x ≤ -1 then d :: ancList cmp r x
      else if 1 ≤ cmp d x then d :: ancList cmp l x
      else [d]

/-- Modelled from the spec: the reference O(n) LCA computation for claim
C8 — intersect the two ancestor sets and take the deepest member, the
deepest common ancestor being the last element of the root-first common
chain. -/
def lcaRef {α : Type} [DecidableEq α] (cmp : α → α → Int) (t : MTree α)
    (a b : α) : Option α :=
  ((ancList cmp t a).filter (fun y => y ∈ ancList cmp t b)).getLast?

/-- Remove the entry of one key from an in-order (payload, count) list,
leaving every other entry untouched. -/
def eraseKey {α : Type} [DecidableEq α] (x : α) :
    List (α × Nat) → List (α × Nat)
  | [] => []
  | (y, c) :: rest =>
      if y = x then rest else (y, c) :: eraseKey x rest

/-- A node of the void-pointer AVL variant (scl_avl_tree.c inside
priQueueUtils.h): children are NULL-able pointers (nil) and the payload
is a separately allocated pointer that can itself be NULL (none) when
its allocation failed. -/
inductive SclTree (α : Type) : Type where
  | nil : SclTree α
  | node (left : SclTree α) (data : Option α) (count : Nat) (height : Nat)
      (right : SclTree α) : SclTree α
  deriving DecidableEq, Repr

/-- Stored height of an scl node; an absent node counts 0 in
avl_update_node_height. -/
def sclHeightOf {α : Type} : SclTree α → Nat
  | .nil => 0
  | .node _ _ _ h _ => h

/-- Node count of an scl tree. -/
def sclNodeCount {α : Type} : SclTree α → Nat
  | .nil => 0
  | .node l _ _ _ r => sclNodeCount l + sclNodeCount r + 1

/-- The comparator applied to a node's data pointer.  Passing a NULL
payload pointer to the user comparator is undefined behaviour in the C
source; the embedding completes it arbitrarily with 0 and no theorem
below exercises that case. -/
def sclCmp {α : Type} (cmp : α → α → Int) : Option α → α → Int
  | none, _ => 0
  | some d, x => cmp d x

/-- avl_update_node_height: recompute the stored height from the
children, absent children counting 0. -/
def sclUpheight {α : Type} : SclTree α → SclTree α
  | .nil => .nil
  | .node l d c _ r =>
      .node l d c (max (sclHeightOf l) (sclHeightOf r) + 1) r

/-- avl_get_node_balance, following the source's branch structure: NULL
and childless nodes are balanced, a single-child node's balance is that
child's signed height, otherwise the difference of the heights. -/
def sclBalance {α : Type} : SclTree α → Int
  | .nil => 0
  | .node .nil _ _ _ .nil => 0
  | .node (.node ll ld lc lh lr) _ _ _ .nil =>
      (sclHeightOf (.node ll ld lc lh lr) : Int)
  | .node .nil _ _ _ (.node rl rd rc rh rr) =>
      -(sclHeightOf (.node rl rd rc rh rr) : Int)
  | .node l _ _ _ r => (sclHeightOf l : Int) - (sclHeightOf r : Int)

/-- avl_rotate_left (same remark on the parent re-link as for
mavlRotl). -/
def sclRotl {α : Type} : SclTree α → SclTree α
  | .node l d c h (.node rl rd rc rh rr) =>
      sclUpheight (.node (sclUpheight (.node l d c h rl)) rd rc rh rr)
  | t => t

/-- avl_rotate_right. -/
def sclRotr {α : Type} : SclTree α → SclTree α
  | .node (.node ll ld lc lh lr) d c h r =>
      sclUpheight (.node ll ld lc lh (sclUpheight (.node lr d c h r)))
  | t => t

/-- One iteration of the avl_insert_fix_node_up loop body (same loop
shape as the macro variant). -/
def sclInsertFixBody {α : Type} (t : SclTree α) : SclTree α × Bool :=
  match sclUpheight t with
  | .nil => (.nil, false)
  | .node l d c h r =>
      let bf := sclBalance (.node l d c h r)
      let lbf := sclBalance l
      let rbf := sclBalance r
      if bf = 2 ∧ lbf = 1 then (sclRotr (.node l d c h r), true)
      else if bf = -2 ∧ rbf = -1 then (sclRotl (.node l d c h r), true)
      else if bf = 2 ∧ lbf = -1 then
        (sclRotr (.node (sclRotl l) d c h r), true)
      else if bf = -2 ∧ rbf = 1 then
        (sclRotl (.node l d c h (sclRotr r)), true)
      else (.node l d c h r, false)

/-- The insert fixup of the scl variant applied at one ancestor
level. -/
def sclInsertFixLevel {α : Type} (t : SclTree α) : SclTree α :=
  fixAtLevel sclInsertFixBody (sclNodeCount t + 1) t

/-- Outcome of the avl_insert descent. -/
inductive SclIns : Type where
  | attached
  | dup
  | fail
  deriving DecidableEq, Repr

/-- Descent and fixup of avl_insert.  create_avl_node returns NULL only
when the node allocation itself fails (nodeAlloc false); when the
payload allocation fails (dataAlloc false) it still returns the node,
whose data pointer is NULL, and avl_insert links that node into the
tree. -/
def sclInsertGo {α : Type} (cmp : α → α → Int)
    (nodeAlloc dataAlloc : Bool) : SclTree α → α → SclTree α × SclIns
  | .nil, x =>
      if nodeAlloc then
        (.node .nil (if dataAlloc then some x else none) 1 1 .nil, .attached)
      else (.nil, .fail)
  | .node l d c h r, x =>
      if 1 ≤ sclCmp cmp d x then
        match sclInsertGo cmp nodeAlloc dataAlloc l x with
        | (l', .attached) => (sclInsertFixLevel (.node l' d c h r), .attached)
        | (l', o) => (.node l' d c h r, o)
      else if sclCmp cmp d x ≤ -1 then
        match sclInsertGo cmp nodeAlloc dataAlloc r x with
        | (r', .attached) => (sclInsertFixLevel (.node l d c h r'), .attached)
        | (r', o) => (.node l d c h r', o)
      else (.node l d (c + 1) h r, .dup)

/-- The avl_tree_t structure of the scl variant. -/
structure SclAvl (α : Type) : Type where
  root : SclTree α
  size : Nat
  deriving DecidableEq, Repr

/-- avl_insert on a non-NULL tree with a valid data pointer and size:
returns the C int result, 0 for success and 1 for failure; failure is
reported only when create_avl_node returned NULL, that is, only when the
node allocation itself failed. -/
def avl_insert {α : Type} (cmp : α → α → Int) (nodeAlloc dataAlloc : Bool)
    (tree : SclAvl α) (x : α) : SclAvl α × Int :=
  match sclInsertGo cmp nodeAlloc dataAlloc tree.root x with
  | (t, .attached) => (⟨t, tree.size + 1⟩, 0)
  | (t, .dup) => (⟨t, tree.size⟩, 0)
  | (_, .fail) => (tree, 1)

/-- Does any node of the scl tree have an absent (NULL) payload? -/
def sclHasAbsentPayload {α : Type} : SclTree α → Bool
  | .nil => false
  | .node l d _ _ r =>
      d.isNone || sclHasAbsentPayload l || sclHasAbsentPayload r

/-- The tree with the count of one key incremented in place, everything
else (shape, payloads, heights) untouched; used to state what a
duplicate insert does.  The count field is a uint32_t, so the ++ of the
duplicate path wraps to 0 after 2 ^ 32 - 1: the increment is modulo
2 ^ 32. -/
def bumpCount {α : Type} (cmp : α → α → Int) (x : α) : MTree α → MTree α
  | .nil => .nil
  | .node l d c h r =>
      if 1 ≤ cmp d x then .node (bumpCount cmp x l) d c h r
      else if cmp d x ≤ -1 then .node l d c h (bumpCount cmp x r)
      else .node l d ((c + 1) % 2 ^ 32) h r

/-- A one-key tree, built by the operations, for concrete witnesses. -/
def witTree1 : MAvl Int := mavlRun intCmp [.push 5 true]

/-- The tree of the spec scenario: keys 30, 20, 40, 10, 25, 50 inserted
in order. -/
def witTree6 : MAvl Int :=
  mavlRun intCmp
    [.push 30 true, .push 20 true, .push 40 true, .push 10 true,
      .push 25 true, .push 50 true]

/-! Lemmas and theorems. -/

/-- intCmp is a valid comparator for the integer order. -/
theorem intCmp_valid : ValidCmp intCmp := by
  constructor
  · intro a b
    simp only [intCmp]
    split_ifs with h1 h2 <;> simp <;> omega
  · intro a b
    simp only [intCmp]
    split_ifs with h1 h2 <;> simp <;> omega

/-- When neither sign condition of a valid comparator holds, the two
payloads are equal. -/
theorem ValidCmp.eq_of_mid {α : Type} [LinearOrder α] {cmp : α → α → Int}
    (hc : ValidCmp cmp) {a b : α} (h1 : ¬cmp a b ≤ -1) (h2 : ¬1 ≤ cmp a b) :
    a = b := by
  rw [hc.le_neg] at h1
  rw [hc.ge_pos] at h2
  exact le_antisymm (not_lt.mp h2) (not_lt.mp h1)

/-- The two sign conditions of any integer-valued comparator are
mutually exclusive. -/
theorem cmp_not_both {v : Int} (h : 1 ≤ v) : ¬v ≤ -1 := by omega

/-- The pop descent misses exactly when the find descent does. -/
theorem mavlPopGo_eq_none {α : Type} (cmp : α → α → Int) (x : α) :
    ∀ t : MTree α, mavlPopGo cmp x t = none ↔ mavlFindNode cmp t x = .nil := by
  intro t
  induction t with
  | nil => simp [mavlPopGo, mavlFindNode]
  | node l d c h r ihl ihr =>
    by_cases h1 : cmp d x ≤ -1
    · rw [mavlPopGo, mavlFindNode, if_pos h1, if_pos h1]
      rcases hgo : mavlPopGo cmp x r with _ | r'
      · simpa [hgo] using ihr.mp hgo
      · constructor
        · intro hcontra
          simp at hcontra
        · intro hfind
          rw [ihr.mpr hfind] at hgo
          exact absurd hgo (by simp)
    · by_cases h2 : 1 ≤ cmp d x
      · rw [mavlPopGo, mavlFindNode, if_neg h1, if_neg h1, if_pos h2,
          if_pos h2]
        rcases hgo : mavlPopGo cmp x l with _ | l'
        · simpa [hgo] using ihl.mp hgo
        · constructor
          · intro hcontra
            simp at hcontra
          · intro hfind
            rw [ihl.mpr hfind] at hgo
            exact absurd hgo (by simp)
      · rw [mavlPopGo, mavlFindNode, if_neg h1, if_neg h1, if_neg h2,
          if_neg h2]
        simp

/-- A push whose descent finds an equal node only bumps that node's
count: no rotation, no height change, no new node. -/
theorem mavlPushGo_found {α : Type} (cmp : α → α → Int) (ok : Bool)
    (x : α) :
    ∀ t : MTree α, mavlFindNode cmp t x ≠ .nil →
      mavlPushGo cmp ok t x = (bumpCount cmp x t, .dup) := by
  intro t
  induction t with
  | nil => intro hfind; exact absurd rfl hfind
  | node l d c h r ihl ihr =>
    intro hfind
    by_cases h2 : 1 ≤ cmp d x
    · have h1 : ¬cmp d x ≤ -1 := cmp_not_both h2
      rw [mavlFindNode, if_neg h1, if_pos h2] at hfind
      rw [mavlPushGo, if_pos h2, ihl hfind, bumpCount, if_pos h2]
    · by_cases h1 : cmp d x ≤ -1
      · rw [mavlFindNode, if_pos h1] at hfind
        rw [mavlPushGo, if_neg h2, if_pos h1, ihr hfind, bumpCount,
          if_neg h2, if_pos h1]
      · rw [mavlPushGo, if_neg h2, if_neg h1, bumpCount, if_neg h2,
          if_neg h1]

/-- In-order list of a node. -/
theorem inordC_node {α : Type} (l : MTree α) (d : α) (c h : Nat)
    (r : MTree α) :
    inordC (.node l d c h r) = inordC l ++ (d, c) :: inordC r := rfl

/-- In-order key list of a node. -/
theorem inord_node {α : Type} (l : MTree α) (d : α) (c h : Nat)
    (r : MTree α) :
    inord (.node l d c h r) = inord l ++ d :: inord r := by
  simp [inord, inordC]

/-- Recomputing a height does not change the in-order content. -/
theorem inordC_upheight {α : Type} (t : MTree α) :
    inordC (upheight t) = inordC t := by
  cases t <;> rfl

/-- A left rotation does not change the in-order content. -/
theorem inordC_rotl {α : Type} (t : MTree α) :
    inordC (mavlRotl t) = inordC t := by
  match t with
  | .nil => rfl
  | .node l d c h .nil => rfl
  | .node l d c h (.node rl rd rc rh rr) =>
    simp [mavlRotl, inordC_upheight, inordC_node, upheight]

/-- A right rotation does not change the in-order content. -/
theorem inordC_rotr {α : Type} (t : MTree α) :
    inordC (mavlRotr t) = inordC t := by
  match t with
  | .nil => rfl
  | .node .nil d c h r => rfl
  | .node (.node ll ld lc lh lr) d c h r =>
    simp [mavlRotr, inordC_upheight, inordC_node, upheight]

/-- One insert-fixup body step does not change the in-order content. -/
theorem inordC_pushFixBody {α : Type} (t : MTree α) :
    inordC (pushFixBody t).1 = inordC t := by
  cases t with
  | nil => rfl
  | node l d c h r =>
    simp only [pushFixBody, upheight]
    split_ifs <;>
      simp [inordC_rotr, inordC_rotl, inordC_node, inordC_upheight]

/-- One delete-fixup body step does not change the in-order content. -/
theorem inordC_popFixBody {α : Type} (t : MTree α) :
    inordC (popFixBody t).1 = inordC t := by
  cases t with
  | nil => rfl
  | node l d c h r =>
    simp only [popFixBody, upheight]
    split_ifs <;>
      simp [inordC_rotr, inordC_rotl, inordC_node, inordC_upheight]

/-- The per-level fixup loop does not change the in-order content. -/
theorem inordC_fixAtLevel {α : Type} (body : MTree α → MTree α × Bool)
    (hbody : ∀ t, inordC (body t).1 = inordC t) :
    ∀ (n : Nat) (t : MTree α), inordC (fixAtLevel body n t) = inordC t := by
  intro n
  induction n with
  | zero => intro t; rfl
  | succ n ih =>
    intro t
    rcases hb : body t with ⟨t', b⟩
    have ht' : inordC t' = inordC t := by
      have := hbody t
      rw [hb] at this
      exact this
    cases b with
    | false => simp [fixAtLevel, hb, ht']
    | true => simp [fixAtLevel, hb, ih t', ht']

/-- The insert fixup at one level does not change the in-order
content. -/
theorem inordC_pushFixLevel {α : Type} (t : MTree α) :
    inordC (pushFixLevel t) = inordC t :=
  inordC_fixAtLevel pushFixBody inordC_pushFixBody _ t

/-- The delete fixup at one level does not change the in-order
content. -/
theorem inordC_popFixLevel {α : Type} (t : MTree α) :
    inordC (popFixLevel t) = inordC t :=
  inordC_fixAtLevel popFixBody inordC_popFixBody _ t

/-- Height of the nil sentinel. -/
theorem heightOf_nil {α : Type} : heightOf (.nil : MTree α) = 0 := rfl

/-- Stored height of a node. -/
theorem heightOf_node {α : Type} (l : MTree α) (d : α) (c h : Nat)
    (r : MTree α) : heightOf (.node l d c h r) = h := rfl

/-- Height consistency at a node, unfolded. -/
theorem hokb_node_iff {α : Type} (l : MTree α) (d : α) (c h : Nat)
    (r : MTree α) :
    hokb (.node l d c h r) = true ↔
      hokb l = true ∧ hokb r = true ∧
        h = max (heightOf l) (heightOf r) + 1 := by
  simp [hokb, Bool.and_eq_true, and_assoc]

/-- Balance at a node, unfolded. -/
theorem balb_node_iff {α : Type} (l : MTree α) (d : α) (c h : Nat)
    (r : MTree α) :
    balb (.node l d c h r) = true ↔
      balb l = true ∧ balb r = true ∧
        (heightOf l : Int) - (heightOf r : Int) ≤ 1 ∧
        (heightOf r : Int) - (heightOf l : Int) ≤ 1 := by
  simp [balb, Bool.and_eq_true, and_assoc]

/-- Right rotation at a node whose left child is present, evaluated. -/
theorem mavlRotr_eval {α : Type} (a : MTree α) (x : α) (ca ha : Nat)
    (b : MTree α) (d : α) (c h : Nat) (r : MTree α) :
    mavlRotr (.node (.node a x ca ha b) d c h r) =
      .node a x ca
        (max (heightOf a) (max (heightOf b) (heightOf r) + 1) + 1)
        (.node b d c (max (heightOf b) (heightOf r) + 1) r) := rfl

/-- Left rotation at a node whose right child is present, evaluated. -/
theorem mavlRotl_eval {α : Type} (l : MTree α) (d : α) (c h : Nat)
    (rl : MTree α) (rd : α) (rc rh : Nat) (rr : MTree α) :
    mavlRotl (.node l d c h (.node rl rd rc rh rr)) =
      .node (.node l d c (max (heightOf l) (heightOf rl) + 1) rl) rd rc
        (max (max (heightOf l) (heightOf rl) + 1) (heightOf rr) + 1) rr := rfl

/-- The insert-fixup body at a node, evaluated to its if-chain on the
children's stored heights and balances. -/
theorem pushFixBody_node {α : Type} (l : MTree α) (d : α) (c h : Nat)
    (r : MTree α) :
    pushFixBody (.node l d c h r) =
      (if (heightOf l : Int) - heightOf r = 2 ∧ mavlBalance l = 1 then
        (mavlRotr (.node l d c (max (heightOf l) (heightOf r) + 1) r), true)
      else if (heightOf l : Int) - heightOf r = -2 ∧ mavlBalance r = -1 then
        (mavlRotl (.node l d c (max (heightOf l) (heightOf r) + 1) r), true)
      else if (heightOf l : Int) - heightOf r = 2 ∧ mavlBalance l = -1 then
        (mavlRotr (.node (mavlRotl l) d c
          (max (heightOf l) (heightOf r) + 1) r), true)
      else if (heightOf l : Int) - heightOf r = -2 ∧ mavlBalance r = 1 then
        (mavlRotl (.node l d c (max (heightOf l) (heightOf r) + 1)
          (mavlRotr r)), true)
      else (.node l d c (max (heightOf l) (heightOf r) + 1) r, false)) := rfl

/-- The delete-fixup body at a node, evaluated likewise. -/
theorem popFixBody_node {α : Type} (l : MTree α) (d : α) (c h : Nat)
    (r : MTree α) :
    popFixBody (.node l d c h r) =
      (if (heightOf l : Int) - heightOf r > 1 ∧ mavlBalance l ≥ 0 then
        (mavlRotr (.node l d c (max (heightOf l) (heightOf r) + 1) r), true)
      else if (heightOf l : Int) - heightOf r < -1 ∧ mavlBalance r ≤ 0 then
        (mavlRotl (.node l d c (max (heightOf l) (heightOf r) + 1) r), true)
      else if (heightOf l : Int) - heightOf r > 1 ∧ mavlBalance l < 0 then
        (mavlRotr (.node (mavlRotl l) d c
          (max (heightOf l) (heightOf r) + 1) r), true)
      else if (heightOf l : Int) - heightOf r < -1 ∧ mavlBalance r > 0 then
        (mavlRotl (.node l d c (max (heightOf l) (heightOf r) + 1)
          (mavlRotr r)), true)
      else (.node l d c (max (heightOf l) (heightOf r) + 1) r, false)) := rfl

/-- One fuelled loop round when the body does not rotate. -/
theorem fixAtLevel_nofix {β : Type} (body : β → β × Bool) (n : Nat)
    (t t' : β) (hb : body t = (t', false)) :
    fixAtLevel body (n + 1) t = t' := by
  simp [fixAtLevel, hb]

/-- One fuelled loop round when the body rotates once and the revisit
does not rotate again. -/
theorem fixAtLevel_onefix {β : Type} (body : β → β × Bool) (n : Nat)
    (t t1 t2 : β) (hb : body t = (t1, true))
    (hb2 : body t1 = (t2, false)) : fixAtLevel body (n + 2) t = t2 := by
  simp [fixAtLevel, hb, hb2]

/-- The insert fixup at a level where the body does not rotate. -/
theorem pushFixLevel_of_nofix {α : Type} (l : MTree α) (d : α) (c h : Nat)
    (r : MTree α) (t' : MTree α)
    (hb : pushFixBody (.node l d c h r) = (t', false)) :
    pushFixLevel (.node l d c h r) = t' :=
  fixAtLevel_nofix pushFixBody _ _ _ hb

/-- The insert fixup at a level where the body rotates once and the
revisit of the rotated root does not rotate again. -/
theorem pushFixLevel_of_onefix {α : Type} (l : MTree α) (d : α)
    (c h : Nat) (r : MTree α) (t1 t2 : MTree α)
    (hb : pushFixBody (.node l d c h r) = (t1, true))
    (hb2 : pushFixBody t1 = (t2, false)) :
    pushFixLevel (.node l d c h r) = t2 :=
  fixAtLevel_onefix pushFixBody (nodeCount l + nodeCount r) _ _ _ hb hb2

/-- The delete fixup at a level where the body does not rotate. -/
theorem popFixLevel_of_nofix {α : Type} (l : MTree α) (d : α) (c h : Nat)
    (r : MTree α) (t' : MTree α)
    (hb : popFixBody (.node l d c h r) = (t', false)) :
    popFixLevel (.node l d c h r) = t' :=
  fixAtLevel_nofix popFixBody _ _ _ hb

/-- The delete fixup at a level where the body rotates once and the
revisit does not rotate again. -/
theorem popFixLevel_of_onefix {α : Type} (l : MTree α) (d : α)
    (c h : Nat) (r : MTree α) (t1 t2 : MTree α)
    (hb : popFixBody (.node l d c h r) = (t1, true))
    (hb2 : popFixBody t1 = (t2, false)) :
    popFixLevel (.node l d c h r) = t2 :=
  fixAtLevel_onefix popFixBody (nodeCount l + nodeCount r) _ _ _ hb hb2

/-- The insert fixup at a level whose balance is within bounds only
recomputes the height. -/
theorem pushFixLevel_nofix {α : Type} (l : MTree α) (d : α) (c h : Nat)
    (r : MTree α) (h1 : -1 ≤ (heightOf l : Int) - heightOf r)
    (h2 : (heightOf l : Int) - heightOf r ≤ 1) :
    pushFixLevel (.node l d c h r) =
      .node l d c (max (heightOf l) (heightOf r) + 1) r := by
  apply pushFixLevel_of_nofix
  rw [pushFixBody_node, if_neg (by rintro ⟨ha, -⟩; omega),
    if_neg (by rintro ⟨ha, -⟩; omega), if_neg (by rintro ⟨ha, -⟩; omega),
    if_neg (by rintro ⟨ha, -⟩; omega)]

/-- The delete fixup at a level whose balance is within bounds only
recomputes the height. -/
theorem popFixLevel_nofix {α : Type} (l : MTree α) (d : α) (c h : Nat)
    (r : MTree α) (h1 : -1 ≤ (heightOf l : Int) - heightOf r)
    (h2 : (heightOf l : Int) - heightOf r ≤ 1) :
    popFixLevel (.node l d c h r) =
      .node l d c (max (heightOf l) (heightOf r) + 1) r := by
  apply popFixLevel_of_nofix
  rw [popFixBody_node, if_neg (by rintro ⟨ha, -⟩; omega),
    if_neg (by rintro ⟨ha, -⟩; omega), if_neg (by rintro ⟨ha, -⟩; omega),
    if_neg (by rintro ⟨ha, -⟩; omega)]

/-- A height-correct, balance-within-bounds node is a fixed point of the
insert-fixup body. -/
theorem pushFixBody_stable {α : Type} (l : MTree α) (d : α) (c h : Nat)
    (r : MTree α) (hh : h = max (heightOf l) (heightOf r) + 1)
    (h1 : -1 ≤ (heightOf l : Int) - heightOf r)
    (h2 : (heightOf l : Int) - heightOf r ≤ 1) :
    pushFixBody (.node l d c h r) = (.node l d c h r, false) := by
  subst hh
  rw [pushFixBody_node, if_neg (by rintro ⟨ha, -⟩; omega),
    if_neg (by rintro ⟨ha, -⟩; omega), if_neg (by rintro ⟨ha, -⟩; omega),
    if_neg (by rintro ⟨ha, -⟩; omega)]

/-- A height-correct, balance-within-bounds node is a fixed point of the
delete-fixup body. -/
theorem popFixBody_stable {α : Type} (l : MTree α) (d : α) (c h : Nat)
    (r : MTree α) (hh : h = max (heightOf l) (heightOf r) + 1)
    (h1 : -1 ≤ (heightOf l : Int) - heightOf r)
    (h2 : (heightOf l : Int) - heightOf r ≤ 1) :
    popFixBody (.node l d c h r) = (.node l d c h r, false) := by
  subst hh
  rw [popFixBody_node, if_neg (by rintro ⟨ha, -⟩; omega),
    if_neg (by rintro ⟨ha, -⟩; omega), if_neg (by rintro ⟨ha, -⟩; omega),
    if_neg (by rintro ⟨ha, -⟩; omega)]

/-- Behaviour of the insert fixup at one ancestor: with height-correct,
balanced children whose heights differ by at most 2 — and, when they
differ by exactly 2, a strictly unbalanced taller child, which insertion
guarantees — the level ends height-correct and balanced; either no
rotation fired and the node was merely re-heighted, or a rotation
restored the height to the smaller value. -/
theorem pushFixLevel_spec {α : Type} (l : MTree α) (d : α) (c h : Nat)
    (r : MTree α) (hl : hokb l = true) (hr : hokb r = true)
    (bl : balb l = true) (br : balb r = true)
    (hlb : -2 ≤ (heightOf l : Int) - heightOf r)
    (hub : (heightOf l : Int) - heightOf r ≤ 2)
    (h2l : (heightOf l : Int) - heightOf r = 2 → mavlBalance l ≠ 0)
    (h2r : (heightOf l : Int) - heightOf r = -2 → mavlBalance r ≠ 0) :
    hokb (pushFixLevel (.node l d c h r)) = true ∧
      balb (pushFixLevel (.node l d c h r)) = true ∧
      ((pushFixLevel (.node l d c h r) =
          .node l d c (max (heightOf l) (heightOf r) + 1) r ∧
         -1 ≤ (heightOf l : Int) - heightOf r ∧
         (heightOf l : Int) - heightOf r ≤ 1) ∨
       (heightOf (pushFixLevel (.node l d c h r)) =
          max (heightOf l) (heightOf r) ∧
         ((heightOf l : Int) - heightOf r = 2 ∨
          (heightOf l : Int) - heightOf r = -2))) := by
  by_cases hmid : -1 ≤ (heightOf l : Int) - heightOf r ∧
      (heightOf l : Int) - heightOf r ≤ 1
  · obtain ⟨hm1, hm2⟩ := hmid
    rw [pushFixLevel_nofix l d c h r hm1 hm2]
    refine ⟨?_, ?_, Or.inl ⟨rfl, hm1, hm2⟩⟩
    · rw [hokb_node_iff]
      exact ⟨hl, hr, rfl⟩
    · rw [balb_node_iff]
      exact ⟨bl, br, by omega, by omega⟩
  · rcases (by omega : (heightOf l : Int) - heightOf r = 2 ∨
        (heightOf l : Int) - heightOf r = -2) with hbf | hbf
    · -- the left child is two higher: it is a node
      cases l with
      | nil => rw [heightOf_nil] at hbf; omega
      | node a x ca ha b =>
        rw [hokb_node_iff] at hl
        obtain ⟨hoka, hokb', hha⟩ := hl
        rw [balb_node_iff] at bl
        obtain ⟨bala, balbb, hab1, hab2⟩ := bl
        have hbal : (heightOf a : Int) - heightOf b ≠ 0 := by
          simpa [mavlBalance] using h2l hbf
        rw [heightOf_node] at hbf
        rcases (by omega : heightOf a = heightOf b + 1 ∨
            heightOf b = heightOf a + 1) with hcase | hcase
        · -- left-left: one right rotation
          have hcond : (heightOf (MTree.node a x ca ha b) : Int) -
              heightOf r = 2 ∧ mavlBalance (MTree.node a x ca ha b) = 1 := by
            refine ⟨by rw [heightOf_node]; omega, ?_⟩
            simp only [mavlBalance]
            omega
          have hb1 : pushFixBody (.node (.node a x ca ha b) d c h r) =
              (.node a x ca
                (max (heightOf a) (max (heightOf b) (heightOf r) + 1) + 1)
                (.node b d c (max (heightOf b) (heightOf r) + 1) r),
               true) := by
            rw [pushFixBody_node, if_pos hcond, mavlRotr_eval]
          have hb2 : pushFixBody
              (.node a x ca
                (max (heightOf a) (max (heightOf b) (heightOf r) + 1) + 1)
                (.node b d c (max (heightOf b) (heightOf r) + 1) r)) =
              (.node a x ca
                (max (heightOf a) (max (heightOf b) (heightOf r) + 1) + 1)
                (.node b d c (max (heightOf b) (heightOf r) + 1) r),
               false) := by
            apply pushFixBody_stable <;> simp only [heightOf_node] <;> omega
          rw [pushFixLevel_of_onefix _ _ _ _ _ _ _ hb1 hb2]
          refine ⟨?_, ?_, Or.inr ⟨?_, Or.inl hbf⟩⟩
          · simp only [hokb_node_iff, heightOf_node]
            refine ⟨hoka, ⟨hokb', hr, ?_⟩, ?_⟩ <;> (first | trivial | omega)
          · simp only [balb_node_iff, heightOf_node]
            refine ⟨bala, ⟨balbb, br, ?_, ?_⟩, ?_, ?_⟩ <;>
              (first | trivial | omega)
          · simp only [heightOf_node]
            omega
        · -- left-right: rotate the left child left, then right
          cases b with
          | nil => rw [heightOf_nil] at hcase; omega
          | node b1 z cb hbz b2 =>
            rw [hokb_node_iff] at hokb'
            obtain ⟨hokb1, hokb2, hhb⟩ := hokb'
            rw [balb_node_iff] at balbb
            obtain ⟨balb1, balb2, hb12a, hb12b⟩ := balbb
            rw [heightOf_node] at hcase hab1 hab2 hha hbal
            have hn1 : ¬((heightOf (MTree.node a x ca ha
                (.node b1 z cb hbz b2)) : Int) - heightOf r = 2 ∧
                mavlBalance (MTree.node a x ca ha
                  (.node b1 z cb hbz b2)) = 1) := by
              rintro ⟨-, hbb⟩
              simp only [mavlBalance, heightOf_node] at hbb
              omega
            have hn2 : ¬((heightOf (MTree.node a x ca ha
                (.node b1 z cb hbz b2)) : Int) - heightOf r = -2 ∧
                mavlBalance r = -1) := by
              rintro ⟨hc1, -⟩
              rw [heightOf_node] at hc1
              omega
            have hcond3 : (heightOf (MTree.node a x ca ha
                (.node b1 z cb hbz b2)) : Int) - heightOf r = 2 ∧
                mavlBalance (MTree.node a x ca ha
                  (.node b1 z cb hbz b2)) = -1 := by
              refine ⟨by rw [heightOf_node]; omega, ?_⟩
              simp only [mavlBalance, heightOf_node]
              omega
            have hb1 : pushFixBody (.node (.node a x ca ha
                (.node b1 z cb hbz b2)) d c h r) =
                (.node (.node a x ca (max (heightOf a) (heightOf b1) + 1) b1)
                  z cb
                  (max (max (heightOf a) (heightOf b1) + 1)
                    (max (heightOf b2) (heightOf r) + 1) + 1)
                  (.node b2 d c (max (heightOf b2) (heightOf r) + 1) r),
                 true) := by
              rw [pushFixBody_node, if_neg hn1, if_neg hn2, if_pos hcond3,
                mavlRotl_eval, mavlRotr_eval]
              simp only [heightOf_node]
            have hb2 : pushFixBody
                (.node (.node a x ca (max (heightOf a) (heightOf b1) + 1) b1)
                  z cb
                  (max (max (heightOf a) (heightOf b1) + 1)
                    (max (heightOf b2) (heightOf r) + 1) + 1)
                  (.node b2 d c (max (heightOf b2) (heightOf r) + 1) r)) =
                (.node (.node a x ca (max (heightOf a) (heightOf b1) + 1) b1)
                  z cb
                  (max (max (heightOf a) (heightOf b1) + 1)
                    (max (heightOf b2) (heightOf r) + 1) + 1)
                  (.node b2 d c (max (heightOf b2) (heightOf r) + 1) r),
                 false) := by
              apply pushFixBody_stable <;> simp only [heightOf_node]
                <;> omega
            rw [pushFixLevel_of_onefix _ _ _ _ _ _ _ hb1 hb2]
            refine ⟨?_, ?_, Or.inr ⟨?_, Or.inl hbf⟩⟩
            · simp only [hokb_node_iff, heightOf_node]
              refine ⟨⟨hoka, hokb1, ?_⟩, ⟨hokb2, hr, ?_⟩, ?_⟩ <;>
                (first | trivial | omega)
            · simp only [balb_node_iff, heightOf_node]
              refine ⟨⟨bala, balb1, ?_, ?_⟩, ⟨balb2, br, ?_, ?_⟩, ?_, ?_⟩ <;>
                (first | trivial | omega)
            · simp only [heightOf_node]
              omega
    · -- the right child is two higher: it is a node
      cases r with
      | nil => rw [heightOf_nil] at hbf; omega
      | node rl rd rc rh rr =>
        rw [hokb_node_iff] at hr
        obtain ⟨hokrl, hokrr, hhr⟩ := hr
        rw [balb_node_iff] at br
        obtain ⟨balrl, balrr, hrr1, hrr2⟩ := br
        have hbal : (heightOf rl : Int) - heightOf rr ≠ 0 := by
          simpa [mavlBalance] using h2r hbf
        rw [heightOf_node] at hbf
        rcases (by omega : heightOf rr = heightOf rl + 1 ∨
            heightOf rl = heightOf rr + 1) with hcase | hcase
        · -- right-right: one left rotation
          have hn1 : ¬((heightOf l : Int) -
              heightOf (MTree.node rl rd rc rh rr) = 2 ∧
              mavlBalance l = 1) := by
            rintro ⟨hc1, -⟩
            rw [heightOf_node] at hc1
            omega
          have hcond2 : (heightOf l : Int) -
              heightOf (MTree.node rl rd rc rh rr) = -2 ∧
              mavlBalance (MTree.node rl rd rc rh rr) = -1 := by
            refine ⟨by rw [heightOf_node]; omega, ?_⟩
            simp only [mavlBalance]
            omega
          have hb1 : pushFixBody (.node l d c h (.node rl rd rc rh rr)) =
              (.node (.node l d c (max (heightOf l) (heightOf rl) + 1) rl)
                rd rc
                (max (max (heightOf l) (heightOf rl) + 1) (heightOf rr) + 1)
                rr, true) := by
            rw [pushFixBody_node, if_neg hn1, if_pos hcond2, mavlRotl_eval]
          have hb2 : pushFixBody
              (.node (.node l d c (max (heightOf l) (heightOf rl) + 1) rl)
                rd rc
                (max (max (heightOf l) (heightOf rl) + 1) (heightOf rr) + 1)
                rr) =
              (.node (.node l d c (max (heightOf l) (heightOf rl) + 1) rl)
                rd rc
                (max (max (heightOf l) (heightOf rl) + 1) (heightOf rr) + 1)
                rr, false) := by
            apply pushFixBody_stable <;> simp only [heightOf_node] <;> omega
          rw [pushFixLevel_of_onefix _ _ _ _ _ _ _ hb1 hb2]
          refine ⟨?_, ?_, Or.inr ⟨?_, Or.inr hbf⟩⟩
          · simp only [hokb_node_iff, heightOf_node]
            refine ⟨⟨hl, hokrl, ?_⟩, hokrr, ?_⟩ <;> (first | trivial | omega)
          · simp only [balb_node_iff, heightOf_node]
            refine ⟨⟨bl, balrl, ?_, ?_⟩, balrr, ?_, ?_⟩ <;>
              (first | trivial | omega)
          · simp only [heightOf_node]
            omega
        · -- right-left: rotate the right child right, then left
          cases rl with
          | nil => rw [heightOf_nil] at hcase; omega
          | node p1 q cq hq p2 =>
            rw [hokb_node_iff] at hokrl
            obtain ⟨hokp1, hokp2, hhp⟩ := hokrl
            rw [balb_node_iff] at balrl
            obtain ⟨balp1, balp2, hp12a, hp12b⟩ := balrl
            rw [heightOf_node] at hcase hrr1 hrr2 hhr hbal
            have hn1 : ¬((heightOf l : Int) -
                heightOf (MTree.node (.node p1 q cq hq p2) rd rc rh rr) =
                  2 ∧ mavlBalance l = 1) := by
              rintro ⟨hc1, -⟩
              rw [heightOf_node] at hc1
              omega
            have hn2 : ¬((heightOf l : Int) -
                heightOf (MTree.node (.node p1 q cq hq p2) rd rc rh rr) =
                  -2 ∧
                mavlBalance
                  (MTree.node (.node p1 q cq hq p2) rd rc rh rr) = -1) := by
              rintro ⟨-, hbb⟩
              simp only [mavlBalance, heightOf_node] at hbb
              omega
            have hn3 : ¬((heightOf l : Int) -
                heightOf (MTree.node (.node p1 q cq hq p2) rd rc rh rr) =
                  2 ∧ mavlBalance l = -1) := by
              rintro ⟨hc1, -⟩
              rw [heightOf_node] at hc1
              omega
            have hcond4 : (heightOf l : Int) -
                heightOf (MTree.node (.node p1 q cq hq p2) rd rc rh rr) =
                  -2 ∧
                mavlBalance
                  (MTree.node (.node p1 q cq hq p2) rd rc rh rr) = 1 := by
              refine ⟨by rw [heightOf_node]; omega, ?_⟩
              simp only [mavlBalance, heightOf_node]
              omega
            have hb1 : pushFixBody
                (.node l d c h
                  (.node (.node p1 q cq hq p2) rd rc rh rr)) =
                (.node (.node l d c (max (heightOf l) (heightOf p1) + 1) p1)
                  q cq
                  (max (max (heightOf l) (heightOf p1) + 1)
                    (max (heightOf p2) (heightOf rr) + 1) + 1)
                  (.node p2 rd rc (max (heightOf p2) (heightOf rr) + 1) rr),
                 true) := by
              rw [pushFixBody_node, if_neg hn1, if_neg hn2, if_neg hn3,
                if_pos hcond4, mavlRotr_eval, mavlRotl_eval]
              simp only [heightOf_node]
            have hb2 : pushFixBody
                (.node (.node l d c (max (heightOf l) (heightOf p1) + 1) p1)
                  q cq
                  (max (max (heightOf l) (heightOf p1) + 1)
                    (max (heightOf p2) (heightOf rr) + 1) + 1)
                  (.node p2 rd rc (max (heightOf p2) (heightOf rr) + 1)
                    rr)) =
                (.node (.node l d c (max (heightOf l) (heightOf p1) + 1) p1)
                  q cq
                  (max (max (heightOf l) (heightOf p1) + 1)
                    (max (heightOf p2) (heightOf rr) + 1) + 1)
                  (.node p2 rd rc (max (heightOf p2) (heightOf rr) + 1) rr),
                 false) := by
              apply pushFixBody_stable <;> simp only [heightOf_node]
                <;> omega
            rw [pushFixLevel_of_onefix _ _ _ _ _ _ _ hb1 hb2]
            refine ⟨?_, ?_, Or.inr ⟨?_, Or.inr hbf⟩⟩
            · simp only [hokb_node_iff, heightOf_node]
              refine ⟨⟨hl, hokp1, ?_⟩, ⟨hokp2, hokrr, ?_⟩, ?_⟩ <;>
                (first | trivial | omega)
            · simp only [balb_node_iff, heightOf_node]
              refine ⟨⟨bl, balp1, ?_, ?_⟩, ⟨balp2, balrr, ?_, ?_⟩, ?_, ?_⟩ <;>
                (first | trivial | omega)
            · simp only [heightOf_node]
              omega

/-- Behaviour of the delete fixup at one ancestor: with height-correct,
balanced children whose heights differ by at most 2, the level ends
height-correct and balanced, with the recomputed height max+1 or, after
a shortening rotation, max. -/
theorem popFixLevel_spec {α : Type} (l : MTree α) (d : α) (c h : Nat)
    (r : MTree α) (hl : hokb l = true) (hr : hokb r = true)
    (bl : balb l = true) (br : balb r = true)
    (hlb : -2 ≤ (heightOf l : Int) - heightOf r)
    (hub : (heightOf l : Int) - heightOf r ≤ 2) :
    hokb (popFixLevel (.node l d c h r)) = true ∧
      balb (popFixLevel (.node l d c h r)) = true ∧
      (heightOf (popFixLevel (.node l d c h r)) =
          max (heightOf l) (heightOf r) + 1 ∨
        (heightOf (popFixLevel (.node l d c h r)) =
            max (heightOf l) (heightOf r) ∧
          ((heightOf l : Int) - heightOf r = 2 ∨
            (heightOf l : Int) - heightOf r = -2))) := by
  by_cases hmid : -1 ≤ (heightOf l : Int) - heightOf r ∧
      (heightOf l : Int) - heightOf r ≤ 1
  · obtain ⟨hm1, hm2⟩ := hmid
    rw [popFixLevel_nofix l d c h r hm1 hm2]
    refine ⟨?_, ?_, Or.inl ?_⟩
    · rw [hokb_node_iff]
      exact ⟨hl, hr, rfl⟩
    · rw [balb_node_iff]
      exact ⟨bl, br, by omega, by omega⟩
    · rw [heightOf_node]
  · rcases (by omega : (heightOf l : Int) - heightOf r = 2 ∨
        (heightOf l : Int) - heightOf r = -2) with hbf | hbf
    · -- the left child is two higher: it is a node
      cases l with
      | nil => rw [heightOf_nil] at hbf; omega
      | node a x ca ha b =>
        rw [hokb_node_iff] at hl
        obtain ⟨hoka, hokb', hha⟩ := hl
        rw [balb_node_iff] at bl
        obtain ⟨bala, balbb, hab1, hab2⟩ := bl
        rw [heightOf_node] at hbf
        rcases (by omega : heightOf b ≤ heightOf a ∨
            heightOf b = heightOf a + 1) with hcase | hcase
        · -- taller left child not right-heavy: one right rotation
          have hcond : (heightOf (MTree.node a x ca ha b) : Int) -
              heightOf r > 1 ∧ mavlBalance (MTree.node a x ca ha b) ≥ 0 := by
            refine ⟨by rw [heightOf_node]; omega, ?_⟩
            simp only [mavlBalance]
            omega
          have hb1 : popFixBody (.node (.node a x ca ha b) d c h r) =
              (.node a x ca
                (max (heightOf a) (max (heightOf b) (heightOf r) + 1) + 1)
                (.node b d c (max (heightOf b) (heightOf r) + 1) r),
               true) := by
            rw [popFixBody_node, if_pos hcond, mavlRotr_eval]
          have hb2 : popFixBody
              (.node a x ca
                (max (heightOf a) (max (heightOf b) (heightOf r) + 1) + 1)
                (.node b d c (max (heightOf b) (heightOf r) + 1) r)) =
              (.node a x ca
                (max (heightOf a) (max (heightOf b) (heightOf r) + 1) + 1)
                (.node b d c (max (heightOf b) (heightOf r) + 1) r),
               false) := by
            apply popFixBody_stable <;> simp only [heightOf_node] <;> omega
          rw [popFixLevel_of_onefix _ _ _ _ _ _ _ hb1 hb2]
          refine ⟨?_, ?_, ?_⟩
          · simp only [hokb_node_iff, heightOf_node]
            refine ⟨hoka, ⟨hokb', hr, ?_⟩, ?_⟩ <;> (first | trivial | omega)
          · simp only [balb_node_iff, heightOf_node]
            refine ⟨bala, ⟨balbb, br, ?_, ?_⟩, ?_, ?_⟩ <;>
              (first | trivial | omega)
          · simp only [heightOf_node]
            omega
        · -- taller left child right-heavy: double rotation
          cases b with
          | nil => rw [heightOf_nil] at hcase; omega
          | node b1 z cb hbz b2 =>
            rw [hokb_node_iff] at hokb'
            obtain ⟨hokb1, hokb2, hhb⟩ := hokb'
            rw [balb_node_iff] at balbb
            obtain ⟨balb1, balb2, hb12a, hb12b⟩ := balbb
            rw [heightOf_node] at hcase hab1 hab2 hha
            have hn1 : ¬((heightOf (MTree.node a x ca ha
                (.node b1 z cb hbz b2)) : Int) - heightOf r > 1 ∧
                mavlBalance (MTree.node a x ca ha
                  (.node b1 z cb hbz b2)) ≥ 0) := by
              rintro ⟨-, hbb⟩
              simp only [mavlBalance, heightOf_node] at hbb
              omega
            have hn2 : ¬((heightOf (MTree.node a x ca ha
                (.node b1 z cb hbz b2)) : Int) - heightOf r < -1 ∧
                mavlBalance r ≤ 0) := by
              rintro ⟨hc1, -⟩
              rw [heightOf_node] at hc1
              omega
            have hcond3 : (heightOf (MTree.node a x ca ha
                (.node b1 z cb hbz b2)) : Int) - heightOf r > 1 ∧
                mavlBalance (MTree.node a x ca ha
                  (.node b1 z cb hbz b2)) < 0 := by
              refine ⟨by rw [heightOf_node]; omega, ?_⟩
              simp only [mavlBalance, heightOf_node]
              omega
            have hb1 : popFixBody (.node (.node a x ca ha
                (.node b1 z cb hbz b2)) d c h r) =
                (.node (.node a x ca (max (heightOf a) (heightOf b1) + 1) b1)
                  z cb
                  (max (max (heightOf a) (heightOf b1) + 1)
                    (max (heightOf b2) (heightOf r) + 1) + 1)
                  (.node b2 d c (max (heightOf b2) (heightOf r) + 1) r),
                 true) := by
              rw [popFixBody_node, if_neg hn1, if_neg hn2, if_pos hcond3,
                mavlRotl_eval, mavlRotr_eval]
              simp only [heightOf_node]
            have hb2 : popFixBody
                (.node (.node a x ca (max (heightOf a) (heightOf b1) + 1) b1)
                  z cb
                  (max (max (heightOf a) (heightOf b1) + 1)
                    (max (heightOf b2) (heightOf r) + 1) + 1)
                  (.node b2 d c (max (heightOf b2) (heightOf r) + 1) r)) =
                (.node (.node a x ca (max (heightOf a) (heightOf b1) + 1) b1)
                  z cb
                  (max (max (heightOf a) (heightOf b1) + 1)
                    (max (heightOf b2) (heightOf r) + 1) + 1)
                  (.node b2 d c (max (heightOf b2) (heightOf r) + 1) r),
                 false) := by
              apply popFixBody_stable <;> simp only [heightOf_node]
                <;> omega
            rw [popFixLevel_of_onefix _ _ _ _ _ _ _ hb1 hb2]
            refine ⟨?_, ?_, ?_⟩
            · simp only [hokb_node_iff, heightOf_node]
              refine ⟨⟨hoka, hokb1, ?_⟩, ⟨hokb2, hr, ?_⟩, ?_⟩ <;>
                (first | trivial | omega)
            · simp only [balb_node_iff, heightOf_node]
              refine ⟨⟨bala, balb1, ?_, ?_⟩, ⟨balb2, br, ?_, ?_⟩, ?_, ?_⟩ <;>
                (first | trivial | omega)
            · simp only [heightOf_node]
              omega
    · -- the right child is two higher: it is a node
      cases r with
      | nil => rw [heightOf_nil] at hbf; omega
      | node rl rd rc rh rr =>
        rw [hokb_node_iff] at hr
        obtain ⟨hokrl, hokrr, hhr⟩ := hr
        rw [balb_node_iff] at br
        obtain ⟨balrl, balrr, hrr1, hrr2⟩ := br
        rw [heightOf_node] at hbf
        rcases (by omega : heightOf rl ≤ heightOf rr ∨
            heightOf rl = heightOf rr + 1) with hcase | hcase
        · -- taller right child not left-heavy: one left rotation
          have hn1 : ¬((heightOf l : Int) -
              heightOf (MTree.node rl rd rc rh rr) > 1 ∧
              mavlBalance l ≥ 0) := by
            rintro ⟨hc1, -⟩
            rw [heightOf_node] at hc1
            omega
          have hcond2 : (heightOf l : Int) -
              heightOf (MTree.node rl rd rc rh rr) < -1 ∧
              mavlBalance (MTree.node rl rd rc rh rr) ≤ 0 := by
            refine ⟨by rw [heightOf_node]; omega, ?_⟩
            simp only [mavlBalance]
            omega
          have hb1 : popFixBody (.node l d c h (.node rl rd rc rh rr)) =
              (.node (.node l d c (max (heightOf l) (heightOf rl) + 1) rl)
                rd rc
                (max (max (heightOf l) (heightOf rl) + 1) (heightOf rr) + 1)
                rr, true) := by
            rw [popFixBody_node, if_neg hn1, if_pos hcond2, mavlRotl_eval]
          have hb2 : popFixBody
              (.node (.node l d c (max (heightOf l) (heightOf rl) + 1) rl)
                rd rc
                (max (max (heightOf l) (heightOf rl) + 1) (heightOf rr) + 1)
                rr) =
              (.node (.node l d c (max (heightOf l) (heightOf rl) + 1) rl)
                rd rc
                (max (max (heightOf l) (heightOf rl) + 1) (heightOf rr) + 1)
                rr, false) := by
            apply popFixBody_stable <;> simp only [heightOf_node] <;> omega
          rw [popFixLevel_of_onefix _ _ _ _ _ _ _ hb1 hb2]
          refine ⟨?_, ?_, ?_⟩
          · simp only [hokb_node_iff, heightOf_node]
            refine ⟨⟨hl, hokrl, ?_⟩, hokrr, ?_⟩ <;> (first | trivial | omega)
          · simp only [balb_node_iff, heightOf_node]
            refine ⟨⟨bl, balrl, ?_, ?_⟩, balrr, ?_, ?_⟩ <;>
              (first | trivial | omega)
          · simp only [heightOf_node]
            omega
        · -- taller right child left-heavy: double rotation
          cases rl with
          | nil => rw [heightOf_nil] at hcase; omega
          | node p1 q cq hq p2 =>
            rw [hokb_node_iff] at hokrl
            obtain ⟨hokp1, hokp2, hhp⟩ := hokrl
            rw [balb_node_iff] at balrl
            obtain ⟨balp1, balp2, hp12a, hp12b⟩ := balrl
            rw [heightOf_node] at hcase hrr1 hrr2 hhr
            have hn1 : ¬((heightOf l : Int) -
                heightOf (MTree.node (.node p1 q cq hq p2) rd rc rh rr) >
                  1 ∧ mavlBalance l ≥ 0) := by
              rintro ⟨hc1, -⟩
              rw [heightOf_node] at hc1
              omega
            have hn2 : ¬((heightOf l : Int) -
                heightOf (MTree.node (.node p1 q cq hq p2) rd rc rh rr) <
                  -1 ∧
                mavlBalance
                  (MTree.node (.node p1 q cq hq p2) rd rc rh rr) ≤ 0) := by
              rintro ⟨-, hbb⟩
              simp only [mavlBalance, heightOf_node] at hbb
              omega
            have hn3 : ¬((heightOf l : Int) -
                heightOf (MTree.node (.node p1 q cq hq p2) rd rc rh rr) >
                  1 ∧ mavlBalance l < 0) := by
              rintro ⟨hc1, -⟩
              rw [heightOf_node] at hc1
              omega
            have hcond4 : (heightOf l : Int) -
                heightOf (MTree.node (.node p1 q cq hq p2) rd rc rh rr) <
                  -1 ∧
                mavlBalance
                  (MTree.node (.node p1 q cq hq p2) rd rc rh rr) > 0 := by
              refine ⟨by rw [heightOf_node]; omega, ?_⟩
              simp only [mavlBalance, heightOf_node]
              omega
            have hb1 : popFixBody
                (.node l d c h
                  (.node (.node p1 q cq hq p2) rd rc rh rr)) =
                (.node (.node l d c (max (heightOf l) (heightOf p1) + 1) p1)
                  q cq
                  (max (max (heightOf l) (heightOf p1) + 1)
                    (max (heightOf p2) (heightOf rr) + 1) + 1)
                  (.node p2 rd rc (max (heightOf p2) (heightOf rr) + 1) rr),
                 true) := by
              rw [popFixBody_node, if_neg hn1, if_neg hn2, if_neg hn3,
                if_pos hcond4, mavlRotr_eval, mavlRotl_eval]
              simp only [heightOf_node]
            have hb2 : popFixBody
                (.node (.node l d c (max (heightOf l) (heightOf p1) + 1) p1)
                  q cq
                  (max (max (heightOf l) (heightOf p1) + 1)
                    (max (heightOf p2) (heightOf rr) + 1) + 1)
                  (.node p2 rd rc (max (heightOf p2) (heightOf rr) + 1)
                    rr)) =
                (.node (.node l d c (max (heightOf l) (heightOf p1) + 1) p1)
                  q cq
                  (max (max (heightOf l) (heightOf p1) + 1)
                    (max (heightOf p2) (heightOf rr) + 1) + 1)
                  (.node p2 rd rc (max (heightOf p2) (heightOf rr) + 1) rr),
                 false) := by
              apply popFixBody_stable <;> simp only [heightOf_node]
                <;> omega
            rw [popFixLevel_of_onefix _ _ _ _ _ _ _ hb1 hb2]
            refine ⟨?_, ?_, ?_⟩
            · simp only [hokb_node_iff, heightOf_node]
              refine ⟨⟨hl, hokp1, ?_⟩, ⟨hokp2, hokrr, ?_⟩, ?_⟩ <;>
                (first | trivial | omega)
            · simp only [balb_node_iff, heightOf_node]
              refine ⟨⟨bl, balp1, ?_, ?_⟩, ⟨balp2, balrr, ?_, ?_⟩, ?_, ?_⟩ <;>
                (first | trivial | omega)
            · simp only [heightOf_node]
              omega

/-- allb is the conjunction of p over the in-order key list. -/
theorem allb_iff {α : Type} (p : α → Bool) :
    ∀ t : MTree α, allb p t = true ↔ ∀ y ∈ inord t, p y = true := by
  intro t
  induction t with
  | nil => simp [allb, inord, inordC]
  | node l d c h r ihl ihr =>
    simp only [allb, Bool.and_eq_true, ihl, ihr, inord_node,
      List.mem_append, List.mem_cons]
    constructor
    · rintro ⟨⟨hl, hd⟩, hr⟩ y (hy | rfl | hy)
      · exact hl y hy
      · exact hd
      · exact hr y hy
    · intro hall
      exact ⟨⟨fun y hy => hall y (Or.inl hy), hall d (Or.inr (Or.inl rfl))⟩,
        fun y hy => hall y (Or.inr (Or.inr hy))⟩

/-- The BST order invariant is equivalent to strict sortedness
(pairwise less-than) of the in-order key list. -/
theorem ordb_iff_pairwise {α : Type} [LinearOrder α] :
    ∀ t : MTree α, ordb t = true ↔ (inord t).Pairwise (· < ·) := by
  intro t
  induction t with
  | nil => simp [ordb, inord, inordC]
  | node l d c h r ihl ihr =>
    simp only [ordb, Bool.and_eq_true, ihl, ihr, allb_iff,
      decide_eq_true_eq, inord_node, List.pairwise_append,
      List.pairwise_cons, List.mem_cons]
    constructor
    · rintro ⟨⟨⟨hl, hr⟩, hld⟩, hdr⟩
      refine ⟨hl, ⟨hdr, hr⟩, ?_⟩
      rintro x hx y (rfl | hy)
      · exact hld x hx
      · exact lt_trans (hld x hx) (hdr y hy)
    · rintro ⟨hl, ⟨hdr, hr⟩, hcross⟩
      exact ⟨⟨⟨hl, hr⟩, fun y hy => hcross y hy d (Or.inl rfl)⟩, hdr⟩

/-- A transformation that preserves the in-order content preserves the
BST order invariant. -/
theorem ordb_of_inordC_eq {α : Type} [LinearOrder α] {t t' : MTree α}
    (h : inordC t' = inordC t) (ho : ordb t = true) : ordb t' = true := by
  rw [ordb_iff_pairwise] at ho ⊢
  rw [inord, h, ← inord]
  exact ho

/-- BST order at a node, unfolded to in-order membership bounds. -/
theorem ordb_node_iff {α : Type} [LinearOrder α] (l : MTree α) (d : α)
    (c h : Nat) (r : MTree α) :
    ordb (.node l d c h r) = true ↔
      ordb l = true ∧ ordb r = true ∧ (∀ y ∈ inord l, y < d) ∧
        ∀ y ∈ inord r, d < y := by
  simp [ordb, Bool.and_eq_true, allb_iff, and_assoc]

/-- The key list of the insert fixup at one level. -/
theorem inord_pushFixLevel {α : Type} (t : MTree α) :
    inord (pushFixLevel t) = inord t := by
  rw [inord, inordC_pushFixLevel, inord]

/-- The key list of the delete fixup at one level. -/
theorem inord_popFixLevel {α : Type} (t : MTree α) :
    inord (popFixLevel t) = inord t := by
  rw [inord, inordC_popFixLevel, inord]

/-- Every key of the tree returned by the insert descent is the new key
or a key of the input tree. -/
theorem mavlPushGo_subset {α : Type} (cmp : α → α → Int) (ok : Bool)
    (x : α) :
    ∀ t : MTree α, ∀ y ∈ inord (mavlPushGo cmp ok t x).1,
      y = x ∨ y ∈ inord t := by
  intro t
  induction t with
  | nil =>
    intro y hy
    rcases ok with _ | _
    · simp [mavlPushGo, inord, inordC] at hy
    · simp [mavlPushGo, inord, inordC] at hy
      exact Or.inl hy
  | node l d c h r ihl ihr =>
    intro y hy
    by_cases h1 : 1 ≤ cmp d x
    · rcases hgo : mavlPushGo cmp ok l x with ⟨l', o⟩
      have hmem : y ∈ inord (.node l' d c h r : MTree α) := by
        rw [mavlPushGo, if_pos h1, hgo] at hy
        cases o with
        | attached => rwa [inord_pushFixLevel] at hy
        | dup => exact hy
        | allocFail => exact hy
      rw [inord_node] at hmem
      rw [inord_node]
      rcases List.mem_append.mp hmem with hmem | hmem
      · rcases ihl y (by rw [hgo]; exact hmem) with hx | hmem'
        · exact Or.inl hx
        · exact Or.inr (List.mem_append.mpr (Or.inl hmem'))
      · exact Or.inr (List.mem_append.mpr (Or.inr hmem))
    · by_cases h2 : cmp d x ≤ -1
      · rcases hgo : mavlPushGo cmp ok r x with ⟨r', o⟩
        have hmem : y ∈ inord (.node l d c h r' : MTree α) := by
          rw [mavlPushGo, if_neg h1, if_pos h2, hgo] at hy
          cases o with
          | attached => rwa [inord_pushFixLevel] at hy
          | dup => exact hy
          | allocFail => exact hy
        rw [inord_node] at hmem
        rw [inord_node]
        rcases List.mem_append.mp hmem with hmem | hmem
        · exact Or.inr (List.mem_append.mpr (Or.inl hmem))
        · rcases List.mem_cons.mp hmem with hd | hmem'
          · exact Or.inr (List.mem_append.mpr (Or.inr (hd ▸ List.mem_cons_self _ _)))
          · rcases ihr y (by rw [hgo]; exact hmem') with hx | hmem''
            · exact Or.inl hx
            · exact Or.inr (List.mem_append.mpr (Or.inr
                (List.mem_cons_of_mem _ hmem'')))
      · rw [mavlPushGo, if_neg h1, if_neg h2] at hy
        rw [inord_node] at hy
        rw [inord_node]
        exact Or.inr hy

/-- Unless the allocation failed, the new key is in the tree the insert
descent returns. -/
theorem mavlPushGo_mem_self {α : Type} [LinearOrder α]
    {cmp : α → α → Int} (hc : ValidCmp cmp) (ok : Bool) (x : α) :
    ∀ t : MTree α, (mavlPushGo cmp ok t x).2 ≠ .allocFail →
      x ∈ inord (mavlPushGo cmp ok t x).1 := by
  intro t
  induction t with
  | nil =>
    intro hne
    rcases ok with _ | _
    · exact absurd rfl hne
    · simp [mavlPushGo, inord, inordC]
  | node l d c h r ihl ihr =>
    intro hne
    by_cases h1 : 1 ≤ cmp d x
    · rcases hgo : mavlPushGo cmp ok l x with ⟨l', o⟩
      rw [mavlPushGo, if_pos h1, hgo] at hne ⊢
      have hxl : x ∈ inord l' := by
        cases o with
        | attached => have := ihl (by rw [hgo]; simp); rwa [hgo] at this
        | dup => have := ihl (by rw [hgo]; simp); rwa [hgo] at this
        | allocFail => exact absurd rfl hne
      have hxnode : x ∈ inord (.node l' d c h r : MTree α) := by
        rw [inord_node]
        exact List.mem_append.mpr (Or.inl hxl)
      cases o with
      | attached => rwa [inord_pushFixLevel]
      | dup => exact hxnode
      | allocFail => exact absurd rfl hne
    · by_cases h2 : cmp d x ≤ -1
      · rcases hgo : mavlPushGo cmp ok r x with ⟨r', o⟩
        rw [mavlPushGo, if_neg h1, if_pos h2, hgo] at hne ⊢
        have hxr : x ∈ inord r' := by
          cases o with
          | attached => have := ihr (by rw [hgo]; simp); rwa [hgo] at this
          | dup => have := ihr (by rw [hgo]; simp); rwa [hgo] at this
          | allocFail => exact absurd rfl hne
        have hxnode : x ∈ inord (.node l d c h r' : MTree α) := by
          rw [inord_node]
          exact List.mem_append.mpr (Or.inr (List.mem_cons_of_mem _ hxr))
        cases o with
        | attached => rwa [inord_pushFixLevel]
        | dup => exact hxnode
        | allocFail => exact absurd rfl hne
      · have hdx : d = x := hc.eq_of_mid h2 h1
        rw [mavlPushGo, if_neg h1, if_neg h2, inord_node]
        exact List.mem_append.mpr (Or.inr (hdx ▸ List.mem_cons_self _ _))

/-- The insert descent preserves the BST order invariant. -/
theorem mavlPushGo_ordb {α : Type} [LinearOrder α] {cmp : α → α → Int}
    (hc : ValidCmp cmp) (ok : Bool) (x : α) :
    ∀ t : MTree α, ordb t = true →
      ordb (mavlPushGo cmp ok t x).1 = true := by
  intro t
  induction t with
  | nil =>
    intro hord
    rcases hok : ok with _ | _ <;> simp [mavlPushGo, ordb, allb]
  | node l d c h r ihl ihr =>
    intro hord
    rw [ordb_node_iff] at hord
    obtain ⟨hordl, hordr, hbl, hbr⟩ := hord
    by_cases h1 : 1 ≤ cmp d x
    · have hxd : x < d := by rw [← hc.ge_pos]; exact h1
      rcases hgo : mavlPushGo cmp ok l x with ⟨l', o⟩
      have hordn : ordb (.node l' d c h r : MTree α) = true := by
        rw [ordb_node_iff]
        refine ⟨by have := ihl hordl; rwa [hgo] at this, hordr, ?_, hbr⟩
        intro y hy
        rcases mavlPushGo_subset cmp ok x l y (by rw [hgo]; exact hy) with
          rfl | hmem
        · exact hxd
        · exact hbl y hmem
      rw [mavlPushGo, if_pos h1, hgo]
      cases o with
      | attached => exact ordb_of_inordC_eq (inordC_pushFixLevel _) hordn
      | dup => exact hordn
      | allocFail => exact hordn
    · by_cases h2 : cmp d x ≤ -1
      · have hdx : d < x := by rw [← hc.le_neg]; exact h2
        rcases hgo : mavlPushGo cmp ok r x with ⟨r', o⟩
        have hordn : ordb (.node l d c h r' : MTree α) = true := by
          rw [ordb_node_iff]
          refine ⟨hordl, by have := ihr hordr; rwa [hgo] at this, hbl, ?_⟩
          intro y hy
          rcases mavlPushGo_subset cmp ok x r y (by rw [hgo]; exact hy) with
            rfl | hmem
          · exact hdx
          · exact hbr y hmem
        rw [mavlPushGo, if_neg h1, if_pos h2, hgo]
        cases o with
        | attached => exact ordb_of_inordC_eq (inordC_pushFixLevel _) hordn
        | dup => exact hordn
        | allocFail => exact hordn
      · rw [mavlPushGo, if_neg h1, if_neg h2, ordb_node_iff]
        exact ⟨hordl, hordr, hbl, hbr⟩

/-- The insert descent with fixup keeps height consistency and balance;
the height grows by at most one, it cannot grow on a duplicate or a
failed allocation, and a grown nonempty subtree is never perfectly
balanced — the fact that makes one rotation per ancestor sufficient. -/
theorem mavlPushGo_spec {α : Type} (cmp : α → α → Int) (ok : Bool)
    (x : α) :
    ∀ t : MTree α, hokb t = true → balb t = true →
      hokb (mavlPushGo cmp ok t x).1 = true ∧
        balb (mavlPushGo cmp ok t x).1 = true ∧
        ((mavlPushGo cmp ok t x).2 = .attached →
          heightOf (mavlPushGo cmp ok t x).1 = heightOf t ∨
            (heightOf (mavlPushGo cmp ok t x).1 = heightOf t + 1 ∧
              (mavlBalance (mavlPushGo cmp ok t x).1 ≠ 0 ∨ t = .nil))) ∧
        ((mavlPushGo cmp ok t x).2 ≠ .attached →
          heightOf (mavlPushGo cmp ok t x).1 = heightOf t) := by
  intro t
  induction t with
  | nil =>
    refine fun hok hbal => ?_
    rcases ok with _ | _
    · exact ⟨rfl, rfl, fun hco => by simp [mavlPushGo] at hco,
        fun hne => rfl⟩
    · exact ⟨rfl, rfl, fun hco => Or.inr ⟨rfl, Or.inr rfl⟩,
        fun hne => absurd rfl hne⟩
  | node l d c h r ihl ihr =>
    intro hok hbal
    rw [hokb_node_iff] at hok
    obtain ⟨hokl, hokr, hh⟩ := hok
    rw [balb_node_iff] at hbal
    obtain ⟨ball, balr, hd1, hd2⟩ := hbal
    by_cases h1 : 1 ≤ cmp d x
    · rcases hgo : mavlPushGo cmp ok l x with ⟨l', o⟩
      obtain ⟨ihok, ihbal, ihatt, ihoth⟩ := ihl hokl ball
      simp only [hgo] at ihok ihbal ihatt ihoth
      cases o with
      | attached =>
        have hgrow := ihatt rfl
        have hble : -2 ≤ (heightOf l' : Int) - heightOf r := by
          rcases hgrow with hsame | ⟨hplus, -⟩ <;> omega
        have hbue : (heightOf l' : Int) - heightOf r ≤ 2 := by
          rcases hgrow with hsame | ⟨hplus, -⟩ <;> omega
        have h2l : (heightOf l' : Int) - heightOf r = 2 →
            mavlBalance l' ≠ 0 := by
          intro htwo
          rcases hgrow with hsame | ⟨hplus, hside⟩
          · omega
          · rcases hside with hne | rfl
            · exact hne
            · rw [heightOf_nil] at hplus
              omega
        have h2r : (heightOf l' : Int) - heightOf r = -2 →
            mavlBalance r ≠ 0 := by
          intro htwo
          rcases hgrow with hsame | ⟨hplus, -⟩ <;> omega
        obtain ⟨hfok, hfbal, hfht⟩ :=
          pushFixLevel_spec l' d c h r ihok hokr ihbal balr hble hbue
            h2l h2r
        have hstep : mavlPushGo cmp ok (MTree.node l d c h r) x =
            (pushFixLevel (.node l' d c h r), .attached) := by
          rw [mavlPushGo, if_pos h1, hgo]
        simp only [hstep]
        refine ⟨hfok, hfbal, fun hco => ?_, fun hne => absurd rfl hne⟩
        rcases hfht with ⟨heq, hbnd1, hbnd2⟩ | ⟨hht, hbf2⟩
        · rw [heq, heightOf_node, heightOf_node]
          rcases hgrow with hsame | ⟨hplus, -⟩
          · exact Or.inl (by omega)
          · rcases (by omega : heightOf r = heightOf l + 1 ∨
                heightOf r = heightOf l) with hre | hre
            · exact Or.inl (by omega)
            · refine Or.inr ⟨by omega, Or.inl ?_⟩
              simp only [mavlBalance]
              omega
        · rw [heightOf_node, hht]
          rcases hgrow with hsame | ⟨hplus, -⟩ <;> exact Or.inl (by omega)
      | dup =>
        have hstep : mavlPushGo cmp ok (MTree.node l d c h r) x =
            (.node l' d c h r, .dup) := by
          rw [mavlPushGo, if_pos h1, hgo]
        simp only [hstep]
        have hhl : heightOf l' = heightOf l := ihoth (by simp)
        refine ⟨?_, ?_, fun hco => by simp at hco, fun hne => rfl⟩
        · rw [hokb_node_iff]
          exact ⟨ihok, hokr, by omega⟩
        · rw [balb_node_iff]
          exact ⟨ihbal, balr, by omega, by omega⟩
      | allocFail =>
        have hstep : mavlPushGo cmp ok (MTree.node l d c h r) x =
            (.node l' d c h r, .allocFail) := by
          rw [mavlPushGo, if_pos h1, hgo]
        simp only [hstep]
        have hhl : heightOf l' = heightOf l := ihoth (by simp)
        refine ⟨?_, ?_, fun hco => by simp at hco, fun hne => rfl⟩
        · rw [hokb_node_iff]
          exact ⟨ihok, hokr, by omega⟩
        · rw [balb_node_iff]
          exact ⟨ihbal, balr, by omega, by omega⟩
    · by_cases h2 : cmp d x ≤ -1
      · rcases hgo : mavlPushGo cmp ok r x with ⟨r', o⟩
        obtain ⟨ihok, ihbal, ihatt, ihoth⟩ := ihr hokr balr
        simp only [hgo] at ihok ihbal ihatt ihoth
        cases o with
        | attached =>
          have hgrow := ihatt rfl
          have hble : -2 ≤ (heightOf l : Int) - heightOf r' := by
            rcases hgrow with hsame | ⟨hplus, -⟩ <;> omega
          have hbue : (heightOf l : Int) - heightOf r' ≤ 2 := by
            rcases hgrow with hsame | ⟨hplus, -⟩ <;> omega
          have h2l : (heightOf l : Int) - heightOf r' = 2 →
              mavlBalance l ≠ 0 := by
            intro htwo
            rcases hgrow with hsame | ⟨hplus, -⟩ <;> omega
          have h2r : (heightOf l : Int) - heightOf r' = -2 →
              mavlBalance r' ≠ 0 := by
            intro htwo
            rcases hgrow with hsame | ⟨hplus, hside⟩
            · omega
            · rcases hside with hne | rfl
              · exact hne
              · rw [heightOf_nil] at hplus
                omega
          obtain ⟨hfok, hfbal, hfht⟩ :=
            pushFixLevel_spec l d c h r' hokl ihok ball ihbal hble hbue
              h2l h2r
          have hstep : mavlPushGo cmp ok (MTree.node l d c h r) x =
              (pushFixLevel (.node l d c h r'), .attached) := by
            rw [mavlPushGo, if_neg h1, if_pos h2, hgo]
          simp only [hstep]
          refine ⟨hfok, hfbal, fun hco => ?_, fun hne => absurd rfl hne⟩
          rcases hfht with ⟨heq, hbnd1, hbnd2⟩ | ⟨hht, hbf2⟩
          · rw [heq, heightOf_node, heightOf_node]
            rcases hgrow with hsame | ⟨hplus, -⟩
            · exact Or.inl (by omega)
            · rcases (by omega : heightOf l = heightOf r + 1 ∨
                  heightOf l = heightOf r) with hre | hre
              · exact Or.inl (by omega)
              · refine Or.inr ⟨by omega, Or.inl ?_⟩
                simp only [mavlBalance]
                omega
          · rw [heightOf_node, hht]
            rcases hgrow with hsame | ⟨hplus, -⟩ <;> exact Or.inl (by omega)
        | dup =>
          have hstep : mavlPushGo cmp ok (MTree.node l d c h r) x =
              (.node l d c h r', .dup) := by
            rw [mavlPushGo, if_neg h1, if_pos h2, hgo]
          simp only [hstep]
          have hhr : heightOf r' = heightOf r := ihoth (by simp)
          refine ⟨?_, ?_, fun hco => by simp at hco, fun hne => rfl⟩
          · rw [hokb_node_iff]
            exact ⟨hokl, ihok, by omega⟩
          · rw [balb_node_iff]
            exact ⟨ball, ihbal, by omega, by omega⟩
        | allocFail =>
          have hstep : mavlPushGo cmp ok (MTree.node l d c h r) x =
              (.node l d c h r', .allocFail) := by
            rw [mavlPushGo, if_neg h1, if_pos h2, hgo]
          simp only [hstep]
          have hhr : heightOf r' = heightOf r := ihoth (by simp)
          refine ⟨?_, ?_, fun hco => by simp at hco, fun hne => rfl⟩
          · rw [hokb_node_iff]
            exact ⟨hokl, ihok, by omega⟩
          · rw [balb_node_iff]
            exact ⟨ball, ihbal, by omega, by omega⟩
      · have hstep : mavlPushGo cmp ok (MTree.node l d c h r) x =
            (.node l d ((c + 1) % 2 ^ 32) h r, .dup) := by
          rw [mavlPushGo, if_neg h1, if_neg h2]
        simp only [hstep]
        refine ⟨?_, ?_, fun hco => by simp at hco, fun hne => rfl⟩
        · rw [hokb_node_iff]
          exact ⟨hokl, hokr, hh⟩
        · rw [balb_node_iff]
          exact ⟨ball, balr, hd1, hd2⟩

/-- With the allocation succeeding, the insert descent never reports an
allocation failure. -/
theorem mavlPushGo_ne_allocFail {α : Type} (cmp : α → α → Int) (x : α) :
    ∀ t : MTree α, (mavlPushGo cmp true t x).2 ≠ .allocFail := by
  intro t
  induction t with
  | nil => simp [mavlPushGo]
  | node l d c h r ihl ihr =>
    by_cases h1 : 1 ≤ cmp d x
    · rcases hgo : mavlPushGo cmp true l x with ⟨l', o⟩
      rw [mavlPushGo, if_pos h1, hgo]
      rw [hgo] at ihl
      cases o with
      | attached => simp
      | dup => simp
      | allocFail => exact absurd rfl ihl
    · by_cases h2 : cmp d x ≤ -1
      · rcases hgo : mavlPushGo cmp true r x with ⟨r', o⟩
        rw [mavlPushGo, if_neg h1, if_pos h2, hgo]
        rw [hgo] at ihr
        cases o with
        | attached => simp
        | dup => simp
        | allocFail => exact absurd rfl ihr
      · rw [mavlPushGo, if_neg h1, if_neg h2]
        simp

/-- The minimum-removal of a nonempty subtree always succeeds. -/
theorem mavlPopMin_ne_none {α : Type} :
    ∀ (l : MTree α) (d : α) (c h : Nat) (r : MTree α),
      mavlPopMin (.node l d c h r) ≠ none := by
  intro l
  induction l with
  | nil => intro d c h r; rw [mavlPopMin]; simp
  | node ll ld lc lh lr ihl ihr =>
    intro d c h r
    rw [mavlPopMin]
    rcases hpm : mavlPopMin (.node ll ld lc lh lr) with _ | ⟨info, l'⟩
    · exact absurd hpm (ihl ld lc lh lr)
    · simp

/-- Removing the minimum keeps height consistency and balance, shrinks
the height by at most one, and pops exactly the head of the in-order
entry list (the removed node has no left child, so a single splice
happens at its position). -/
theorem mavlPopMin_spec {α : Type} :
    ∀ t : MTree α, hokb t = true → balb t = true →
      ∀ (sd : α) (sc sh : Nat) (t' : MTree α),
        mavlPopMin t = some ((sd, sc, sh), t') →
          hokb t' = true ∧ balb t' = true ∧
            (heightOf t' + 1 = heightOf t ∨ heightOf t' = heightOf t) ∧
            inordC t = (sd, sc) :: inordC t' := by
  intro t
  induction t with
  | nil =>
    intro hok hbal sd sc sh t' hpm
    rw [mavlPopMin] at hpm
    exact absurd hpm (by simp)
  | node l d c h r ihl ihr =>
    intro hok hbal sd sc sh t' hpm
    rw [hokb_node_iff] at hok
    obtain ⟨hokl, hokr, hh⟩ := hok
    rw [balb_node_iff] at hbal
    obtain ⟨ball, balr, hd1, hd2⟩ := hbal
    cases l with
    | nil =>
      rw [mavlPopMin] at hpm
      simp only [Option.some.injEq, Prod.mk.injEq] at hpm
      obtain ⟨⟨rfl, rfl, rfl⟩, rfl⟩ := hpm
      have h0 : heightOf (MTree.nil : MTree α) = 0 := rfl
      refine ⟨hokr, balr, Or.inl (by rw [heightOf_node]; omega), ?_⟩
      rw [inordC_node]
      simp [inordC]
    | node ll ld lc lh lr =>
      rcases hpm' : mavlPopMin (.node ll ld lc lh lr) with _ | ⟨⟨pd, pc, ph⟩, l'⟩
      · exact absurd hpm' (mavlPopMin_ne_none ll ld lc lh lr)
      · have hstep : mavlPopMin (.node (.node ll ld lc lh lr) d c h r) =
            some ((pd, pc, ph), popFixLevel (.node l' d c h r)) := by
          rw [mavlPopMin, hpm']
        rw [hstep] at hpm
        simp only [Option.some.injEq, Prod.mk.injEq] at hpm
        obtain ⟨⟨rfl, rfl, rfl⟩, rfl⟩ := hpm
        obtain ⟨ihok, ihbal, ihht, ihlist⟩ :=
          ihl hokl ball pd pc ph l' hpm'
        have hup : heightOf l' ≤ heightOf (.node ll ld lc lh lr : MTree α) := by
          rcases ihht with hht | hht <;> omega
        have hdn : heightOf (.node ll ld lc lh lr : MTree α) ≤
            heightOf l' + 1 := by
          rcases ihht with hht | hht <;> omega
        obtain ⟨hfok, hfbal, hfht⟩ :=
          popFixLevel_spec l' d c h r ihok hokr ihbal balr
            (by omega) (by omega)
        refine ⟨hfok, hfbal, ?_, ?_⟩
        · rw [heightOf_node]
          rcases hfht with hone | ⟨htwo, hbf⟩ <;> omega
        · rw [inordC_node, ihlist, inordC_popFixLevel, inordC_node]
          simp

/-- Removal at a located node: height consistency and balance are kept,
the height shrinks by at most one, and the in-order entry list loses
exactly this node's entry. -/
theorem mavlRemoveHere_spec {α : Type} (l : MTree α) (d : α) (c h : Nat)
    (r : MTree α) (hok : hokb (.node l d c h r) = true)
    (hbal : balb (.node l d c h r) = true) :
    hokb (mavlRemoveHere (.node l d c h r)) = true ∧
      balb (mavlRemoveHere (.node l d c h r)) = true ∧
      (heightOf (mavlRemoveHere (.node l d c h r)) + 1 = h ∨
        heightOf (mavlRemoveHere (.node l d c h r)) = h) ∧
      inordC (mavlRemoveHere (.node l d c h r)) = inordC l ++ inordC r := by
  rw [hokb_node_iff] at hok
  obtain ⟨hokl, hokr, hh⟩ := hok
  rw [balb_node_iff] at hbal
  obtain ⟨ball, balr, hd1, hd2⟩ := hbal
  have h0 : heightOf (MTree.nil : MTree α) = 0 := rfl
  cases l with
  | nil =>
    rw [mavlRemoveHere]
    exact ⟨hokr, balr, by omega, by simp [inordC]⟩
  | node ll ld lc lh lr =>
    cases r with
    | nil =>
      rw [mavlRemoveHere]
      exact ⟨hokl, ball, by omega, by simp [inordC]⟩
    | node rl rd rc rh rr =>
      rcases hpm : mavlPopMin (.node rl rd rc rh rr) with _ | ⟨⟨sd, sc, sh⟩, r'⟩
      · exact absurd hpm (mavlPopMin_ne_none rl rd rc rh rr)
      · have hstep : mavlRemoveHere (.node (.node ll ld lc lh lr) d c h
            (.node rl rd rc rh rr)) =
            popFixLevel (.node (.node ll ld lc lh lr) sd sc sh r') := by
          rw [mavlRemoveHere, hpm]
        rw [hstep]
        obtain ⟨ihok, ihbal, ihht, ihlist⟩ :=
          mavlPopMin_spec (.node rl rd rc rh rr) hokr balr sd sc sh r' hpm
        have hup : heightOf r' ≤ heightOf (.node rl rd rc rh rr : MTree α) := by
          rcases ihht with hht | hht <;> omega
        have hdn : heightOf (.node rl rd rc rh rr : MTree α) ≤
            heightOf r' + 1 := by
          rcases ihht with hht | hht <;> omega
        obtain ⟨hfok, hfbal, hfht⟩ :=
          popFixLevel_spec (.node ll ld lc lh lr) sd sc sh r' hokl ihok
            ball ihbal (by omega) (by omega)
        refine ⟨hfok, hfbal, ?_, ?_⟩
        · rcases hfht with hone | ⟨htwo, hbf⟩ <;> omega
        · rw [inordC_popFixLevel, inordC_node, ihlist]

/-- Erasing below a key-free prefix. -/
theorem eraseKey_append_left {α : Type} [DecidableEq α] (x : α) :
    ∀ L1 L2 : List (α × Nat), (∀ p ∈ L1, p.1 ≠ x) →
      eraseKey x (L1 ++ L2) = L1 ++ eraseKey x L2 := by
  intro L1
  induction L1 with
  | nil => intro L2 hne; rfl
  | cons p rest ih =>
    intro L2 hne
    rcases p with ⟨y, c⟩
    rw [List.cons_append, eraseKey,
      if_neg (hne (y, c) (List.mem_cons_self _ _)), ih L2
        (fun q hq => hne q (List.mem_cons_of_mem _ hq)), List.cons_append]

/-- Erasing inside a prefix that holds the key. -/
theorem eraseKey_append_right {α : Type} [DecidableEq α] (x : α) :
    ∀ L1 L2 : List (α × Nat), x ∈ L1.map Prod.fst →
      eraseKey x (L1 ++ L2) = eraseKey x L1 ++ L2 := by
  intro L1
  induction L1 with
  | nil => intro L2 hmem; exact absurd hmem (by simp)
  | cons p rest ih =>
    intro L2 hmem
    rcases p with ⟨y, c⟩
    by_cases hyx : y = x
    · rw [List.cons_append, eraseKey, if_pos hyx, eraseKey, if_pos hyx]
    · have hmem' : x ∈ rest.map Prod.fst := by
        rcases List.mem_map.mp hmem with ⟨q, hq, hfst⟩
        rcases List.mem_cons.mp hq with rfl | hq'
        · exact absurd hfst hyx
        · exact hfst ▸ List.mem_map_of_mem Prod.fst hq'
      rw [List.cons_append, eraseKey, if_neg hyx, ih L2 hmem', eraseKey,
        if_neg hyx, List.cons_append]

/-- eraseKey gives a sublist. -/
theorem eraseKey_sublist {α : Type} [DecidableEq α] (x : α) :
    ∀ L : List (α × Nat), (eraseKey x L).Sublist L := by
  intro L
  induction L with
  | nil => exact List.Sublist.refl _
  | cons p rest ih =>
    rcases p with ⟨y, c⟩
    rw [eraseKey]
    by_cases hyx : y = x
    · rw [if_pos hyx]
      exact List.sublist_cons_of_sublist _ (List.Sublist.refl _)
    · rw [if_neg hyx]
      exact List.Sublist.cons₂ _ ih

/-- In a strictly sorted entry list, the erased key is gone for good. -/
theorem not_mem_map_fst_eraseKey {α : Type} [LinearOrder α] (x : α) :
    ∀ L : List (α × Nat), (L.map Prod.fst).Pairwise (· < ·) →
      x ∉ (eraseKey x L).map Prod.fst := by
  intro L
  induction L with
  | nil => intro hp; simp [eraseKey]
  | cons p rest ih =>
    intro hp hmem
    rcases p with ⟨y, c⟩
    rw [List.map_cons, List.pairwise_cons] at hp
    obtain ⟨hhead, htail⟩ := hp
    by_cases hyx : y = x
    · rw [eraseKey, if_pos hyx] at hmem
      rw [hyx] at hhead
      exact absurd (hhead x hmem) (lt_irrefl x)
    · rw [eraseKey, if_neg hyx, List.map_cons] at hmem
      rcases List.mem_cons.mp hmem with rfl | hmem'
      · exact hyx rfl
      · exact ih htail hmem'

/-- The node the find descent stops on compares equal to the key, hence
under a valid comparator holds the key itself. -/
theorem mavlFindNode_found_data {α : Type} [LinearOrder α]
    {cmp : α → α → Int} (hc : ValidCmp cmp) (x : α) :
    ∀ t l' : MTree α, ∀ (d' : α) (c' h' : Nat), ∀ r' : MTree α,
      mavlFindNode cmp t x = .node l' d' c' h' r' → d' = x := by
  intro t
  induction t with
  | nil => intro l' d' c' h' r' hfind; exact absurd hfind (by rw [mavlFindNode]; simp)
  | node l d c h r ihl ihr =>
    intro l' d' c' h' r' hfind
    by_cases h1 : cmp d x ≤ -1
    · rw [mavlFindNode, if_pos h1] at hfind
      exact ihr l' d' c' h' r' hfind
    · by_cases h2 : 1 ≤ cmp d x
      · rw [mavlFindNode, if_neg h1, if_pos h2] at hfind
        exact ihl l' d' c' h' r' hfind
      · rw [mavlFindNode, if_neg h1, if_neg h2] at hfind
        have : d = d' := congrArg (fun t => match t with
          | MTree.node _ d _ _ _ => d
          | MTree.nil => d) hfind
        rw [← this]
        exact hc.eq_of_mid h1 h2

/-- A successful find means the key is in the tree. -/
theorem mavlFindNode_mem {α : Type} [LinearOrder α] {cmp : α → α → Int}
    (hc : ValidCmp cmp) (x : α) :
    ∀ t : MTree α, mavlFindNode cmp t x ≠ .nil → x ∈ inord t := by
  intro t
  induction t with
  | nil => intro hne; exact absurd (by rw [mavlFindNode]) hne
  | node l d c h r ihl ihr =>
    intro hne
    rw [inord_node]
    by_cases h1 : cmp d x ≤ -1
    · rw [mavlFindNode, if_pos h1] at hne
      exact List.mem_append.mpr (Or.inr (List.mem_cons_of_mem _ (ihr hne)))
    · by_cases h2 : 1 ≤ cmp d x
      · rw [mavlFindNode, if_neg h1, if_pos h2] at hne
        exact List.mem_append.mpr (Or.inl (ihl hne))
      · have hdx : d = x := hc.eq_of_mid h1 h2
        exact List.mem_append.mpr (Or.inr (hdx ▸ List.mem_cons_self _ _))

/-- On a BST-ordered tree, every present key is found. -/
theorem mavlFindNode_ne_nil_of_mem {α : Type} [LinearOrder α]
    {cmp : α → α → Int} (hc : ValidCmp cmp) (x : α) :
    ∀ t : MTree α, ordb t = true → x ∈ inord t →
      mavlFindNode cmp t x ≠ .nil := by
  intro t
  induction t with
  | nil => intro hord hmem; rw [inord, inordC] at hmem; exact absurd hmem (by simp)
  | node l d c h r ihl ihr =>
    intro hord hmem
    rw [ordb_node_iff] at hord
    obtain ⟨hordl, hordr, hbl, hbr⟩ := hord
    rw [inord_node] at hmem
    by_cases h1 : cmp d x ≤ -1
    · have hdx : d < x := by rw [← hc.le_neg]; exact h1
      rw [mavlFindNode, if_pos h1]
      refine ihr hordr ?_
      rcases List.mem_append.mp hmem with hml | hmr
      · exact absurd (hbl x hml) (not_lt_of_gt hdx)
      · rcases List.mem_cons.mp hmr with heq | hx
        · exact absurd hdx (by rw [heq]; exact lt_irrefl d)
        · exact hx
    · by_cases h2 : 1 ≤ cmp d x
      · have hxd : x < d := by rw [← hc.ge_pos]; exact h2
        rw [mavlFindNode, if_neg h1, if_pos h2]
        refine ihl hordl ?_
        rcases List.mem_append.mp hmem with hml | hmr
        · exact hml
        · rcases List.mem_cons.mp hmr with heq | hx
          · exact absurd hxd (by rw [heq]; exact lt_irrefl d)
          · exact absurd (hbr x hx) (not_lt_of_gt hxd)
      · rw [mavlFindNode, if_neg h1, if_neg h2]
        simp

/-- mavl_find on an ordered tree: a present key is reported with M_OK
and its stored payload is the key itself under a valid comparator. -/
theorem mavlFind_of_mem {α : Type} [LinearOrder α] {cmp : α → α → Int}
    (hc : ValidCmp cmp) (x : α) (t : MTree α) (hord : ordb t = true)
    (hmem : x ∈ inord t) : mavlFind cmp t x = (.M_OK, some x) := by
  rcases hfind : mavlFindNode cmp t x with _ | ⟨l', d', c', h', r'⟩
  · exact absurd hfind (mavlFindNode_ne_nil_of_mem hc x t hord hmem)
  · rw [mavlFind, hfind, mavlFindNode_found_data hc x t l' d' c' h' r' hfind]

/-- mavl_find on an absent key reports M_NOT_FOUND with nothing
written. -/
theorem mavlFind_of_not_mem {α : Type} [LinearOrder α]
    {cmp : α → α → Int} (hc : ValidCmp cmp) (x : α) (t : MTree α)
    (hmem : x ∉ inord t) : mavlFind cmp t x = (.M_NOT_FOUND, none) := by
  rcases hfind : mavlFindNode cmp t x with _ | ⟨l', d', c', h', r'⟩
  · rw [mavlFind, hfind]
  · exact absurd (mavlFindNode_mem hc x t (by rw [hfind]; simp)) hmem

/-- Removing the minimum pops the head of the in-order entry list. -/
theorem mavlPopMin_inordC {α : Type} :
    ∀ t : MTree α, ∀ (sd : α) (sc sh : Nat), ∀ t' : MTree α,
      mavlPopMin t = some ((sd, sc, sh), t') →
        inordC t = (sd, sc) :: inordC t' := by
  intro t
  induction t with
  | nil =>
    intro sd sc sh t' hpm
    rw [mavlPopMin] at hpm
    exact absurd hpm (by simp)
  | node l d c h r ihl ihr =>
    intro sd sc sh t' hpm
    cases l with
    | nil =>
      rw [mavlPopMin] at hpm
      simp only [Option.some.injEq, Prod.mk.injEq] at hpm
      obtain ⟨⟨rfl, rfl, rfl⟩, rfl⟩ := hpm
      rw [inordC_node]
      simp [inordC]
    | node ll ld lc lh lr =>
      rcases hpm' : mavlPopMin (.node ll ld lc lh lr) with _ | ⟨⟨pd, pc, ph⟩, l'⟩
      · exact absurd hpm' (mavlPopMin_ne_none ll ld lc lh lr)
      · have hstep : mavlPopMin (.node (.node ll ld lc lh lr) d c h r) =
            some ((pd, pc, ph), popFixLevel (.node l' d c h r)) := by
          rw [mavlPopMin, hpm']
        rw [hstep] at hpm
        simp only [Option.some.injEq, Prod.mk.injEq] at hpm
        obtain ⟨⟨rfl, rfl, rfl⟩, rfl⟩ := hpm
        rw [inordC_node, ihl pd pc ph l' hpm', inordC_popFixLevel,
          inordC_node]
        simp

/-- Removal at a located node drops exactly that node's entry from the
in-order entry list. -/
theorem mavlRemoveHere_inordC {α : Type} (l : MTree α) (d : α)
    (c h : Nat) (r : MTree α) :
    inordC (mavlRemoveHere (.node l d c h r)) = inordC l ++ inordC r := by
  cases l with
  | nil => rw [mavlRemoveHere]; simp [inordC]
  | node ll ld lc lh lr =>
    cases r with
    | nil => rw [mavlRemoveHere]; simp [inordC]
    | node rl rd rc rh rr =>
      rcases hpm : mavlPopMin (.node rl rd rc rh rr) with _ | ⟨⟨sd, sc, sh⟩, r'⟩
      · exact absurd hpm (mavlPopMin_ne_none rl rd rc rh rr)
      · have hstep : mavlRemoveHere (.node (.node ll ld lc lh lr) d c h
            (.node rl rd rc rh rr)) =
            popFixLevel (.node (.node ll ld lc lh lr) sd sc sh r') := by
          rw [mavlRemoveHere, hpm]
        rw [hstep, inordC_popFixLevel, inordC_node,
          mavlPopMin_inordC (.node rl rd rc rh rr) sd sc sh r' hpm]

/-- The delete descent with fixup keeps height consistency and balance
and shrinks the height by at most one. -/
theorem mavlPopGo_spec {α : Type} (cmp : α → α → Int) (x : α) :
    ∀ t : MTree α, hokb t = true → balb t = true →
      ∀ t' : MTree α, mavlPopGo cmp x t = some t' →
        hokb t' = true ∧ balb t' = true ∧
          (heightOf t' + 1 = heightOf t ∨ heightOf t' = heightOf t) := by
  intro t
  induction t with
  | nil => intro hok hbal t' hpop; exact absurd hpop (by rw [mavlPopGo]; simp)
  | node l d c h r ihl ihr =>
    intro hok hbal t' hpop
    have hok' := hok
    have hbal' := hbal
    rw [hokb_node_iff] at hok
    obtain ⟨hokl, hokr, hh⟩ := hok
    rw [balb_node_iff] at hbal
    obtain ⟨ball, balr, hd1, hd2⟩ := hbal
    by_cases h1 : cmp d x ≤ -1
    · rcases hgo : mavlPopGo cmp x r with _ | r'
      · rw [mavlPopGo, if_pos h1, hgo] at hpop
        exact absurd hpop (by simp)
      · have hstep : mavlPopGo cmp x (.node l d c h r) =
            some (popFixLevel (.node l d c h r')) := by
          rw [mavlPopGo, if_pos h1, hgo]
        rw [hstep] at hpop
        obtain rfl := Option.some.inj hpop
        obtain ⟨ihok, ihbal, ihht⟩ := ihr hokr balr r' hgo
        obtain ⟨hfok, hfbal, hfht⟩ :=
          popFixLevel_spec l d c h r' hokl ihok ball ihbal
            (by rcases ihht with hht | hht <;> omega)
            (by rcases ihht with hht | hht <;> omega)
        refine ⟨hfok, hfbal, ?_⟩
        rw [heightOf_node]
        rcases hfht with hone | ⟨htwo, hbf⟩ <;> rcases ihht with hht | hht <;>
          omega
    · by_cases h2 : 1 ≤ cmp d x
      · rcases hgo : mavlPopGo cmp x l with _ | l'
        · rw [mavlPopGo, if_neg h1, if_pos h2, hgo] at hpop
          exact absurd hpop (by simp)
        · have hstep : mavlPopGo cmp x (.node l d c h r) =
              some (popFixLevel (.node l' d c h r)) := by
            rw [mavlPopGo, if_neg h1, if_pos h2, hgo]
          rw [hstep] at hpop
          obtain rfl := Option.some.inj hpop
          obtain ⟨ihok, ihbal, ihht⟩ := ihl hokl ball l' hgo
          obtain ⟨hfok, hfbal, hfht⟩ :=
            popFixLevel_spec l' d c h r ihok hokr ihbal balr
              (by rcases ihht with hht | hht <;> omega)
              (by rcases ihht with hht | hht <;> omega)
          refine ⟨hfok, hfbal, ?_⟩
          rw [heightOf_node]
          rcases hfht with hone | ⟨htwo, hbf⟩ <;> rcases ihht with hht | hht
            <;> omega
      · have hstep : mavlPopGo cmp x (.node l d c h r) =
            some (mavlRemoveHere (.node l d c h r)) := by
          rw [mavlPopGo, if_neg h1, if_neg h2]
        rw [hstep] at hpop
        obtain rfl := Option.some.inj hpop
        obtain ⟨hrok, hrbal, hrht, hrlist⟩ :=
          mavlRemoveHere_spec l d c h r hok' hbal'
        exact ⟨hrok, hrbal, by rw [heightOf_node]; exact hrht⟩

/-- On a BST-ordered tree the delete descent removes exactly the located
key's entry from the in-order entry list, every other entry (payload and
count) staying in place. -/
theorem mavlPopGo_inordC {α : Type} [LinearOrder α] {cmp : α → α → Int}
    (hc : ValidCmp cmp) (x : α) :
    ∀ t : MTree α, ordb t = true →
      ∀ t' : MTree α, mavlPopGo cmp x t = some t' →
        inordC t' = eraseKey x (inordC t) := by
  intro t
  induction t with
  | nil => intro hord t' hpop; exact absurd hpop (by rw [mavlPopGo]; simp)
  | node l d c h r ihl ihr =>
    intro hord t' hpop
    have hord' := hord
    rw [ordb_node_iff] at hord
    obtain ⟨hordl, hordr, hbl, hbr⟩ := hord
    by_cases h1 : cmp d x ≤ -1
    · have hdx : d < x := by rw [← hc.le_neg]; exact h1
      rcases hgo : mavlPopGo cmp x r with _ | r'
      · rw [mavlPopGo, if_pos h1, hgo] at hpop
        exact absurd hpop (by simp)
      · have hstep : mavlPopGo cmp x (.node l d c h r) =
            some (popFixLevel (.node l d c h r')) := by
          rw [mavlPopGo, if_pos h1, hgo]
        rw [hstep] at hpop
        obtain rfl := Option.some.inj hpop
        rw [inordC_popFixLevel, inordC_node, inordC_node, ihr hordr r' hgo,
          eraseKey_append_left x (inordC l) ((d, c) :: inordC r)
            (fun p hp => ne_of_lt (lt_trans
              (hbl p.1 (List.mem_map_of_mem _ hp)) hdx)),
          eraseKey, if_neg (ne_of_lt hdx)]
    · by_cases h2 : 1 ≤ cmp d x
      · have hxd : x < d := by rw [← hc.ge_pos]; exact h2
        rcases hgo : mavlPopGo cmp x l with _ | l'
        · rw [mavlPopGo, if_neg h1, if_pos h2, hgo] at hpop
          exact absurd hpop (by simp)
        · have hstep : mavlPopGo cmp x (.node l d c h r) =
              some (popFixLevel (.node l' d c h r)) := by
            rw [mavlPopGo, if_neg h1, if_pos h2, hgo]
          rw [hstep] at hpop
          obtain rfl := Option.some.inj hpop
          have hxmem : x ∈ (inordC l).map Prod.fst := by
            rw [← inord]
            exact mavlFindNode_mem hc x l
              ((mavlPopGo_eq_none cmp x l).not.mp (by rw [hgo]; simp))
          rw [inordC_popFixLevel, inordC_node, inordC_node,
            ihl hordl l' hgo, eraseKey_append_right x _ _ hxmem]
      · have hdx : d = x := hc.eq_of_mid h1 h2
        subst hdx
        have hstep : mavlPopGo cmp d (.node l d c h r) =
            some (mavlRemoveHere (.node l d c h r)) := by
          rw [mavlPopGo, if_neg h1, if_neg h2]
        rw [hstep] at hpop
        obtain rfl := Option.some.inj hpop
        rw [mavlRemoveHere_inordC, inordC_node,
          eraseKey_append_left d (inordC l) ((d, c) :: inordC r)
            (fun p hp => ne_of_lt (hbl p.1 (List.mem_map_of_mem _ hp))),
          eraseKey, if_pos rfl]

/-- The delete descent preserves the BST order invariant. -/
theorem mavlPopGo_ordb {α : Type} [LinearOrder α] {cmp : α → α → Int}
    (hc : ValidCmp cmp) (x : α) (t : MTree α) (hord : ordb t = true)
    (t' : MTree α) (hpop : mavlPopGo cmp x t = some t') :
    ordb t' = true := by
  have hlist := mavlPopGo_inordC hc x t hord t' hpop
  rw [ordb_iff_pairwise] at hord ⊢
  have hin : inord t' = (eraseKey x (inordC t)).map Prod.fst := by
    rw [inord, hlist]
  rw [hin]
  exact List.Pairwise.sublist
    (List.Sublist.map Prod.fst (eraseKey_sublist x (inordC t))) hord

/-- The three invariants at once, unfolded. -/
theorem wfb_iff {α : Type} [LinearOrder α] (t : MTree α) :
    wfb t = true ↔ ordb t = true ∧ hokb t = true ∧ balb t = true := by
  simp [wfb, Bool.and_eq_true, and_assoc]

/-- One public mutating operation keeps the tree well formed. -/
theorem mavlStep_wf {α : Type} [LinearOrder α] {cmp : α → α → Int}
    (hc : ValidCmp cmp) (self : MAvl α) (op : MOp α)
    (hwf : wfb self.root = true) :
    wfb (mavlStep cmp self op).root = true := by
  rw [wfb_iff] at hwf
  obtain ⟨hord, hok, hbal⟩ := hwf
  rw [wfb_iff]
  cases op with
  | push x ok =>
    rw [mavlStep]
    rcases hgo : mavlPushGo cmp ok self.root x with ⟨t, o⟩
    obtain ⟨hgok, hgbal, -, -⟩ := mavlPushGo_spec cmp ok x self.root hok hbal
    have hgord := mavlPushGo_ordb hc ok x self.root hord
    simp only [hgo] at hgok hgbal hgord
    cases o with
    | attached =>
      have hstep : mavlPush cmp ok self x = (⟨t, self.size + 1⟩, .M_OK) := by
        rw [mavlPush, hgo]
      rw [hstep]
      exact ⟨hgord, hgok, hgbal⟩
    | dup =>
      have hstep : mavlPush cmp ok self x = (⟨t, self.size⟩, .M_OK) := by
        rw [mavlPush, hgo]
      rw [hstep]
      exact ⟨hgord, hgok, hgbal⟩
    | allocFail =>
      have hstep : mavlPush cmp ok self x = (self, .M_MALLOC_FAILED) := by
        rw [mavlPush, hgo]
      rw [hstep]
      exact ⟨hord, hok, hbal⟩
  | pop x =>
    rw [mavlStep]
    rcases hroot : self.root with _ | ⟨l, d, c, h, r⟩
    · have hstep : mavlPop cmp self x = (self, .M_POP_FROM_EMPTY) := by
        simp only [mavlPop, hroot]
      rw [hstep]
      exact ⟨hord, hok, hbal⟩
    · rcases hgo : mavlPopGo cmp x (.node l d c h r) with _ | t'
      · have hstep : mavlPop cmp self x = (self, .M_INVALID_INPUT) := by
          simp only [mavlPop, hroot, hgo]
        rw [hstep]
        exact ⟨hord, hok, hbal⟩
      · have hstep : mavlPop cmp self x =
            (⟨t', self.size - 1⟩, .M_OK) := by
          simp only [mavlPop, hroot, hgo]
        rw [hstep]
        rw [hroot] at hord hok hbal
        obtain ⟨hgok, hgbal, -⟩ :=
          mavlPopGo_spec cmp x (.node l d c h r) hok hbal t' hgo
        exact ⟨mavlPopGo_ordb hc x (.node l d c h r) hord t' hgo, hgok,
          hgbal⟩

/-- Claim C1: every tree built from the empty tree by a finite sequence
of mavl_push and mavl_pop operations with a valid comparator satisfies,
after each operation, the BST order invariant, the AVL balance
invariant, and height consistency at every node. -/
theorem avl_invariants_preserved {α : Type} [LinearOrder α]
    {cmp : α → α → Int} (hc : ValidCmp cmp) (ops : List (MOp α)) :
    ordb (mavlRun cmp ops).root = true ∧
      hokb (mavlRun cmp ops).root = true ∧
      balb (mavlRun cmp ops).root = true := by
  rw [← wfb_iff]
  rw [mavlRun]
  have hgen : ∀ (l : List (MOp α)) (self : MAvl α),
      wfb self.root = true → wfb (l.foldl (mavlStep cmp) self).root = true := by
    intro l
    induction l with
    | nil => intro self hwf; exact hwf
    | cons op rest ih =>
      intro self hwf
      rw [List.foldl_cons]
      exact ih (mavlStep cmp self op) (mavlStep_wf hc self op hwf)
  exact hgen ops mavlNew rfl

/-- Witness for C1 at a concrete operation sequence: six inserts, one
duplicate insert, and two deletes (one of a two-children node). -/
theorem avl_invariants_preserved_witness :
    ordb (mavlRun intCmp
      [.push 30 true, .push 20 true, .push 40 true, .push 10 true,
        .push 25 true, .push 50 true, .push 20 true, .pop 30,
        .pop 10]).root = true ∧
      hokb (mavlRun intCmp
        [.push 30 true, .push 20 true, .push 40 true, .push 10 true,
          .push 25 true, .push 50 true, .push 20 true, .pop 30,
          .pop 10]).root = true ∧
      balb (mavlRun intCmp
        [.push 30 true, .push 20 true, .push 40 true, .push 10 true,
          .push 25 true, .push 50 true, .push 20 true, .pop 30,
          .pop 10]).root = true :=
  avl_invariants_preserved intCmp_valid
    [.push 30 true, .push 20 true, .push 40 true, .push 10 true,
      .push 25 true, .push 50 true, .push 20 true, .pop 30, .pop 10]

/-- mavl_push with a succeeding allocation always returns M_OK, and its
resulting root is the descent's tree. -/
theorem mavlPush_eval {α : Type} (cmp : α → α → Int) (self : MAvl α)
    (x : α) :
    (mavlPush cmp true self x).2 = .M_OK ∧
      (mavlPush cmp true self x).1.root =
        (mavlPushGo cmp true self.root x).1 := by
  rcases hgo : mavlPushGo cmp true self.root x with ⟨t, o⟩
  cases o with
  | attached =>
    have hstep : mavlPush cmp true self x = (⟨t, self.size + 1⟩, .M_OK) := by
      rw [mavlPush, hgo]
    rw [hstep]
    exact ⟨rfl, rfl⟩
  | dup =>
    have hstep : mavlPush cmp true self x = (⟨t, self.size⟩, .M_OK) := by
      rw [mavlPush, hgo]
    rw [hstep]
    exact ⟨rfl, rfl⟩
  | allocFail =>
    have := mavlPushGo_ne_allocFail cmp x self.root
    rw [hgo] at this
    exact absurd rfl this

/-- mavl_pop on a present key of an ordered tree succeeds with M_OK and
its resulting root is the removal descent's tree. -/
theorem mavlPop_found_eval {α : Type} [LinearOrder α]
    {cmp : α → α → Int} (hc : ValidCmp cmp) (self : MAvl α) (x : α)
    (hord : ordb self.root = true) (hmem : x ∈ inord self.root) :
    ∃ t' : MTree α, mavlPopGo cmp x self.root = some t' ∧
      mavlPop cmp self x = (⟨t', self.size - 1⟩, .M_OK) := by
  rcases hroot : self.root with _ | ⟨l, d, c, h, r⟩
  · rw [hroot] at hmem
    rw [inord, inordC] at hmem
    exact absurd hmem (by simp)
  · rw [hroot] at hord hmem
    have hfind := mavlFindNode_ne_nil_of_mem hc x _ hord hmem
    rcases hgo : mavlPopGo cmp x (.node l d c h r) with _ | t'
    · exact absurd ((mavlPopGo_eq_none cmp x _).mp hgo) hfind
    · refine ⟨t', rfl, ?_⟩
      simp only [mavlPop, hroot, hgo]

/-- Claim C2: on a well-formed tree, a successful insert of k makes a
following find of k succeed with the inserted payload, and a successful
delete of k makes a following find of k report M_NOT_FOUND; the delete
part holds for every prior well-formed state, in particular when the
node of k has two children. -/
theorem insert_find_delete_roundtrip {α : Type} [LinearOrder α]
    {cmp : α → α → Int} (hc : ValidCmp cmp) (self : MAvl α) (x : α)
    (hwf : wfb self.root = true) :
    (mavlPush cmp true self x).2 = .M_OK ∧
      mavlFind cmp (mavlPush cmp true self x).1.root x =
        (.M_OK, some x) ∧
      ((mavlPop cmp self x).2 = .M_OK →
        mavlFind cmp (mavlPop cmp self x).1.root x =
          (.M_NOT_FOUND, none)) := by
  obtain ⟨hord, hok, hbal⟩ := (wfb_iff self.root).mp hwf
  obtain ⟨hcode, hroot'⟩ := mavlPush_eval cmp self x
  refine ⟨hcode, ?_, ?_⟩
  · rw [hroot']
    refine mavlFind_of_mem hc x _ (mavlPushGo_ordb hc true x self.root hord)
      ?_
    exact mavlPushGo_mem_self hc true x self.root
      (mavlPushGo_ne_allocFail cmp x self.root)
  · intro hpop
    rcases hroot : self.root with _ | ⟨l, d, c, h, r⟩
    · have hstep : mavlPop cmp self x = (self, .M_POP_FROM_EMPTY) := by
        simp only [mavlPop, hroot]
      rw [hstep] at hpop
      exact absurd hpop (by simp)
    · rcases hgo : mavlPopGo cmp x (.node l d c h r) with _ | t'
      · have hstep : mavlPop cmp self x = (self, .M_INVALID_INPUT) := by
          simp only [mavlPop, hroot, hgo]
        rw [hstep] at hpop
        exact absurd hpop (by simp)
      · have hstep : mavlPop cmp self x =
            (⟨t', self.size - 1⟩, .M_OK) := by
          simp only [mavlPop, hroot, hgo]
        rw [hstep]
        rw [hroot] at hord
        have hnot : x ∉ inord t' := by
          have hlist := mavlPopGo_inordC hc x _ hord t' hgo
          have hin : inord t' =
              (eraseKey x (inordC (MTree.node l d c h r))).map Prod.fst := by
            rw [inord, hlist]
          rw [hin]
          refine not_mem_map_fst_eraseKey x _ ?_
          rw [← inord]
          exact (ordb_iff_pairwise _).mp hord
        exact mavlFind_of_not_mem hc x t' hnot

/-- Witness for C2 at concrete inputs: insert 7 into the one-key tree
and find it; delete 5 from the one-key tree and miss it. -/
theorem insert_find_delete_roundtrip_witness :
    wfb witTree1.root = true ∧
      (mavlPush intCmp true witTree1 7).2 = .M_OK ∧
      mavlFind intCmp (mavlPush intCmp true witTree1 7).1.root 7 =
        (.M_OK, some 7) ∧
      mavlFind intCmp (mavlPop intCmp witTree1 5).1.root 5 =
        (.M_NOT_FOUND, none) := by
  have h7 := insert_find_delete_roundtrip intCmp_valid witTree1 7 (by decide)
  have h5 := insert_find_delete_roundtrip intCmp_valid witTree1 5 (by decide)
  exact ⟨by decide, h7.1, h7.2.1, h5.2.2 (by decide)⟩

/-- Claim C9: one successful delete of k removes k's node entirely,
whatever its duplicate count: the entry of k disappears from the
in-order entry list, a following find of k reports M_NOT_FOUND, and the
delete never merely decrements the count. -/
theorem delete_removes_node_entirely {α : Type} [LinearOrder α]
    {cmp : α → α → Int} (hc : ValidCmp cmp) (self : MAvl α) (x : α)
    (c : Nat) (hwf : wfb self.root = true)
    (hmem : (x, c) ∈ inordC self.root) (hge : 2 ≤ c) :
    (mavlPop cmp self x).2 = .M_OK ∧
      inordC (mavlPop cmp self x).1.root =
        eraseKey x (inordC self.root) ∧
      mavlFind cmp (mavlPop cmp self x).1.root x =
        (.M_NOT_FOUND, none) := by
  obtain ⟨hord, hok, hbal⟩ := (wfb_iff self.root).mp hwf
  have hxin : x ∈ inord self.root := by
    rw [inord]
    exact List.mem_map_of_mem Prod.fst hmem
  obtain ⟨t', hgo, hstep⟩ := mavlPop_found_eval hc self x hord hxin
  rw [hstep]
  have hlist := mavlPopGo_inordC hc x self.root hord t' hgo
  refine ⟨rfl, hlist, ?_⟩
  have hnot : x ∉ inord t' := by
    have hin : inord t' = (eraseKey x (inordC self.root)).map Prod.fst := by
      rw [inord, hlist]
    rw [hin]
    refine not_mem_map_fst_eraseKey x _ ?_
    rw [← inord]
    exact (ordb_iff_pairwise _).mp hord
  exact mavlFind_of_not_mem hc x t' hnot

/-- Witness for C9 at a concrete input: 5 inserted twice (count 2), one
delete removes the node and the following find misses. -/
theorem delete_removes_node_entirely_witness :
    wfb (mavlRun intCmp [.push 5 true, .push 5 true]).root = true ∧
      ((5 : Int), 2) ∈ inordC (mavlRun intCmp
        [.push 5 true, .push 5 true]).root ∧
      (mavlPop intCmp (mavlRun intCmp [.push 5 true, .push 5 true]) 5).2 =
        .M_OK ∧
      mavlFind intCmp
        (mavlPop intCmp (mavlRun intCmp [.push 5 true, .push 5 true])
          5).1.root 5 = (.M_NOT_FOUND, none) := by
  have h := delete_removes_node_entirely intCmp_valid
    (mavlRun intCmp [.push 5 true, .push 5 true]) 5 2 (by decide)
    (by decide) (by decide)
  exact ⟨by decide, by decide, h.1, h.2.2⟩

/-- The minimum node of a nonempty subtree has no left child. -/
theorem mavlMinNode_shape {α : Type} :
    ∀ l : MTree α, ∀ (d : α) (c h : Nat) (r : MTree α),
      ∃ (sd : α) (sc sh : Nat) (sr : MTree α),
        mavlMinNode (.node l d c h r) = .node .nil sd sc sh sr := by
  intro l
  induction l with
  | nil =>
    intro d c h r
    exact ⟨d, c, h, r, by rw [mavlMinNode]⟩
  | node ll ld lc lh lr ihll ihlr =>
    intro d c h r
    obtain ⟨sd, sc, sh, sr, heq⟩ := ihll ld lc lh lr
    exact ⟨sd, sc, sh, sr, by rw [mavlMinNode]; exact heq⟩

/-- The node the min descent stops on holds a minimal key of the
subtree. -/
theorem mavlMinNode_min {α : Type} [LinearOrder α] :
    ∀ t : MTree α, ordb t = true →
      ∀ (sd : α) (sc sh : Nat) (sr : MTree α),
        mavlMinNode t = .node .nil sd sc sh sr →
          sd ∈ inord t ∧ ∀ y ∈ inord t, sd ≤ y := by
  intro t
  induction t with
  | nil =>
    intro hord sd sc sh sr hfind
    rw [mavlMinNode] at hfind
    exact absurd hfind (by simp)
  | node l d c h r ihl ihr =>
    intro hord sd sc sh sr hfind
    rw [ordb_node_iff] at hord
    obtain ⟨hordl, hordr, hbl, hbr⟩ := hord
    cases l with
    | nil =>
      rw [mavlMinNode] at hfind
      simp only [MTree.node.injEq] at hfind
      obtain ⟨-, rfl, rfl, rfl, rfl⟩ := hfind
      constructor
      · rw [inord_node]
        exact List.mem_append.mpr (Or.inr (List.mem_cons_self _ _))
      · intro y hy
        rw [inord_node] at hy
        rcases List.mem_append.mp hy with hml | hmr
        · rw [inord, inordC] at hml
          exact absurd hml (by simp)
        · rcases List.mem_cons.mp hmr with heq | hyr
          · exact le_of_eq heq.symm
          · exact le_of_lt (hbr y hyr)
    | node ll ld lc lh lr =>
      rw [mavlMinNode] at hfind
      obtain ⟨hmem, hmin⟩ := ihl hordl sd sc sh sr hfind
      constructor
      · rw [inord_node]
        exact List.mem_append.mpr (Or.inl hmem)
      · intro y hy
        rw [inord_node] at hy
        rcases List.mem_append.mp hy with hml | hmr
        · exact hmin y hml
        · have hsd : sd < d := hbl sd hmem
          rcases List.mem_cons.mp hmr with heq | hyr
          · exact le_of_lt (heq ▸ hsd)
          · exact le_of_lt (lt_trans hsd (hbr y hyr))

/-- The node the find descent stops on is an ordered subtree of an
ordered tree. -/
theorem mavlFindNode_ordb {α : Type} [LinearOrder α]
    (cmp : α → α → Int) (x : α) :
    ∀ t : MTree α, ordb t = true → ordb (mavlFindNode cmp t x) = true := by
  intro t
  induction t with
  | nil => intro hord; rw [mavlFindNode]; rfl
  | node l d c h r ihl ihr =>
    intro hord
    have hord' := hord
    rw [ordb_node_iff] at hord
    obtain ⟨hordl, hordr, -, -⟩ := hord
    by_cases h1 : cmp d x ≤ -1
    · rw [mavlFindNode, if_pos h1]
      exact ihr hordr
    · by_cases h2 : 1 ≤ cmp d x
      · rw [mavlFindNode, if_neg h1, if_pos h2]
        exact ihl hordl
      · rw [mavlFindNode, if_neg h1, if_neg h2]
        exact hord'

/-- Claim C3: deleting a key whose node has two children locates the
in-order successor — the minimum of the right subtree, a node with no
left child, so at most one further splice happens — and afterwards the
in-order entry sequence is the original one with exactly that key's
entry removed, every remaining key keeping its own payload and count.
The statement covers in particular the case where the successor is the
node's immediate right child. -/
theorem two_children_delete {α : Type} [LinearOrder α]
    {cmp : α → α → Int} (hc : ValidCmp cmp) (self : MAvl α) (x : α)
    (hwf : wfb self.root = true) (l : MTree α) (d : α) (c h : Nat)
    (r : MTree α) (hfind : mavlFindNode cmp self.root x = .node l d c h r)
    (hl : l ≠ .nil) (hr : r ≠ .nil) :
    ∃ (sd : α) (sc sh : Nat) (sr : MTree α),
      mavlMinNode r = .node .nil sd sc sh sr ∧
      sd ∈ inord r ∧ (∀ y ∈ inord r, sd ≤ y) ∧
      (mavlPop cmp self x).2 = .M_OK ∧
      inordC (mavlPop cmp self x).1.root =
        eraseKey x (inordC self.root) := by
  obtain ⟨hord, hok, hbal⟩ := (wfb_iff self.root).mp hwf
  have hfsub : ordb (.node l d c h r : MTree α) = true := by
    have := mavlFindNode_ordb cmp x self.root hord
    rwa [hfind] at this
  rw [ordb_node_iff] at hfsub
  obtain ⟨-, hordr, -, -⟩ := hfsub
  rcases hrshape : r with _ | ⟨rl, rd, rc, rh, rr⟩
  · exact absurd hrshape hr
  · obtain ⟨sd, sc, sh, sr, hmin⟩ := mavlMinNode_shape rl rd rc rh rr
    have hordr' : ordb (MTree.node rl rd rc rh rr) = true := hrshape ▸ hordr
    obtain ⟨hsmem, hsmin⟩ := mavlMinNode_min _ hordr' sd sc sh sr hmin
    have hxin : x ∈ inord self.root :=
      mavlFindNode_mem hc x self.root (by rw [hfind]; simp)
    obtain ⟨t', hgo, hstep⟩ := mavlPop_found_eval hc self x hord hxin
    refine ⟨sd, sc, sh, sr, hmin, hsmem, hsmin, ?_, ?_⟩
    · rw [hstep]
    · rw [hstep]
      exact mavlPopGo_inordC hc x self.root hord t' hgo

/-- Witness for C3 at a concrete input where the in-order successor is
the immediate right child: the tree of 2, 1, 3 with the root 2
deleted. -/
theorem two_children_delete_witness :
    wfb (mavlRun intCmp
      [.push 2 true, .push 1 true, .push 3 true]).root = true ∧
      (mavlPop intCmp
        (mavlRun intCmp [.push 2 true, .push 1 true, .push 3 true]) 2).2 =
        .M_OK ∧
      inordC (mavlPop intCmp
        (mavlRun intCmp [.push 2 true, .push 1 true, .push 3 true])
          2).1.root =
        eraseKey 2 (inordC (mavlRun intCmp
          [.push 2 true, .push 1 true, .push 3 true]).root) := by
  have h := two_children_delete intCmp_valid
    (mavlRun intCmp [.push 2 true, .push 1 true, .push 3 true]) 2
    (by decide) (.node .nil 1 1 1 .nil) 2 1 2 (.node .nil 3 1 1 .nil)
    (by decide) (by decide) (by decide)
  obtain ⟨sd, sc, sh, sr, -, -, -, hcode, hlist⟩ := h
  exact ⟨by decide, hcode, hlist⟩

/-- The max descent of a nonempty subtree stops on a node with no
right child. -/
theorem mavlMaxNode_shape {α : Type} :
    ∀ r : MTree α, ∀ (l : MTree α) (d : α) (c h : Nat),
      ∃ (sl : MTree α) (sd : α) (sc sh : Nat),
        mavlMaxNode (.node l d c h r) = .node sl sd sc sh .nil := by
  intro r
  induction r with
  | nil =>
    intro l d c h
    exact ⟨l, d, c, h, by rw [mavlMaxNode]⟩
  | node rl rd rc rh rr ihrl ihrr =>
    intro l d c h
    obtain ⟨sl, sd, sc, sh, heq⟩ := ihrr rl rd rc rh
    exact ⟨sl, sd, sc, sh, by rw [mavlMaxNode]; exact heq⟩

/-- The node the max descent stops on holds a maximal key of the
subtree. -/
theorem mavlMaxNode_max {α : Type} [LinearOrder α] :
    ∀ t : MTree α, ordb t = true →
      ∀ (sl : MTree α) (sd : α) (sc sh : Nat),
        mavlMaxNode t = .node sl sd sc sh .nil →
          sd ∈ inord t ∧ ∀ y ∈ inord t, y ≤ sd := by
  intro t
  induction t with
  | nil =>
    intro hord sl sd sc sh hfind
    rw [mavlMaxNode] at hfind
    exact absurd hfind (by simp)
  | node l d c h r ihl ihr =>
    intro hord sl sd sc sh hfind
    rw [ordb_node_iff] at hord
    obtain ⟨hordl, hordr, hbl, hbr⟩ := hord
    cases r with
    | nil =>
      rw [mavlMaxNode] at hfind
      obtain ⟨-, rfl, -, -, -⟩ := hfind
      constructor
      · rw [inord_node]
        exact List.mem_append.mpr (Or.inr (List.mem_cons_self _ _))
      · intro y hy
        rw [inord_node] at hy
        rcases List.mem_append.mp hy with hml | hmr
        · exact le_of_lt (hbl y hml)
        · rcases List.mem_cons.mp hmr with heq | hyr
          · exact le_of_eq heq
          · rw [inord, inordC] at hyr
            exact absurd hyr (by simp)
    | node rl rd rc rh rr =>
      rw [mavlMaxNode] at hfind
      obtain ⟨hmem, hmax⟩ := ihr hordr sl sd sc sh hfind
      have hdsd : d < sd := hbr sd hmem
      constructor
      · rw [inord_node]
        exact List.mem_append.mpr (Or.inr
          (List.mem_cons.mpr (Or.inr hmem)))
      · intro y hy
        rw [inord_node] at hy
        rcases List.mem_append.mp hy with hml | hmr
        · exact le_of_lt (lt_trans (hbl y hml) hdsd)
        · rcases List.mem_cons.mp hmr with heq | hyr
          · exact le_of_lt (heq ▸ hdsd)
          · exact hmax y hyr

/-- On an ordered tree, the recording find descent for a present key
stops on that key's node, and the predecessor value it supports —
maximum of the left subtree, else the parent ascent — is the greatest
key of the subtree below the sought key when one exists, and the ascent
of the incoming accumulator otherwise. -/
theorem findPath_pred_below {α : Type} [LinearOrder α]
    {cmp : α → α → Int} (hc : ValidCmp cmp) (x : α) :
    ∀ t : MTree α, ordb t = true → x ∈ inord t →
      ∀ (acc path : List (α × Dir)) (fnd : MTree α),
        mavlFindPath cmp t x acc = (path, fnd) →
        fnd ≠ .nil ∧ dataOf fnd = some x ∧
          ((predPart fnd path = ascendPred acc ∧
              ∀ y ∈ inord t, ¬y < x) ∨
            (∃ p, predPart fnd path = some p ∧ p ∈ inord t ∧ p < x ∧
              ∀ y ∈ inord t, y < x → y ≤ p)) := by
  intro t
  induction t with
  | nil =>
    intro hord hx acc path fnd heq
    rw [inord, inordC] at hx
    exact absurd hx (by simp)
  | node l d c h r ihl ihr =>
    intro hord hx acc path fnd heq
    rw [ordb_node_iff] at hord
    obtain ⟨hordl, hordr, hbl, hbr⟩ := hord
    rw [inord_node] at hx
    by_cases hle : cmp d x ≤ -1
    · have hdx : d < x := (hc.le_neg d x) ▸ hle
      have hxr : x ∈ inord r := by
        rcases List.mem_append.mp hx with hml | hmr
        · exact absurd hdx (not_lt_of_gt (hbl x hml))
        · rcases List.mem_cons.mp hmr with heq' | hyr
          · exact absurd (heq' ▸ hdx) (lt_irrefl x)
          · exact hyr
      rw [mavlFindPath, if_pos hle] at heq
      obtain ⟨hne, hdata, hdisj⟩ :=
        ihr hordr hxr ((d, .right) :: acc) path fnd heq
      refine ⟨hne, hdata, Or.inr ?_⟩
      rcases hdisj with ⟨hpv, hnob⟩ | ⟨p, hpv, hpm, hpx, hbound⟩
      · refine ⟨d, by rw [hpv]; rfl, ?_, hdx, ?_⟩
        · rw [inord_node]
          exact List.mem_append.mpr (Or.inr (List.mem_cons_self _ _))
        · intro y hy hyx
          rw [inord_node] at hy
          rcases List.mem_append.mp hy with hml | hmr
          · exact le_of_lt (hbl y hml)
          · rcases List.mem_cons.mp hmr with heq' | hyr
            · exact le_of_eq heq'
            · exact absurd hyx (hnob y hyr)
      · have hdp : d < p := hbr p hpm
        refine ⟨p, hpv, ?_, hpx, ?_⟩
        · rw [inord_node]
          exact List.mem_append.mpr (Or.inr (List.mem_cons.mpr (Or.inr hpm)))
        · intro y hy hyx
          rw [inord_node] at hy
          rcases List.mem_append.mp hy with hml | hmr
          · exact le_of_lt (lt_trans (hbl y hml) hdp)
          · rcases List.mem_cons.mp hmr with heq' | hyr
            · exact le_of_lt (heq' ▸ hdp)
            · exact hbound y hyr hyx
    · by_cases hge : 1 ≤ cmp d x
      · have hxd : x < d := (hc.ge_pos d x) ▸ hge
        have hxl : x ∈ inord l := by
          rcases List.mem_append.mp hx with hml | hmr
          · exact hml
          · rcases List.mem_cons.mp hmr with heq' | hyr
            · exact absurd (heq' ▸ hxd) (lt_irrefl x)
            · exact absurd hxd (not_lt_of_gt (hbr x hyr))
        rw [mavlFindPath, if_neg hle, if_pos hge] at heq
        obtain ⟨hne, hdata, hdisj⟩ :=
          ihl hordl hxl ((d, .left) :: acc) path fnd heq
        refine ⟨hne, hdata, ?_⟩
        rcases hdisj with ⟨hpv, hnob⟩ | ⟨p, hpv, hpm, hpx, hbound⟩
        · refine Or.inl ⟨by rw [hpv]; rfl, ?_⟩
          intro y hy
          rw [inord_node] at hy
          rcases List.mem_append.mp hy with hml | hmr
          · exact hnob y hml
          · rcases List.mem_cons.mp hmr with heq' | hyr
            · exact heq' ▸ (not_lt_of_gt hxd)
            · exact not_lt_of_gt (lt_trans hxd (hbr y hyr))
        · refine Or.inr ⟨p, hpv, ?_, hpx, ?_⟩
          · rw [inord_node]
            exact List.mem_append.mpr (Or.inl hpm)
          · intro y hy hyx
            rw [inord_node] at hy
            rcases List.mem_append.mp hy with hml | hmr
            · exact hbound y hml hyx
            · rcases List.mem_cons.mp hmr with heq' | hyr
              · exact absurd (heq' ▸ hyx) (not_lt_of_gt hxd)
              · exact absurd hyx (not_lt_of_gt (lt_trans hxd (hbr y hyr)))
      · have hdx : d = x := hc.eq_of_mid hle hge
        subst hdx
        rw [mavlFindPath, if_neg hle, if_neg hge] at heq
        simp only [Prod.mk.injEq] at heq
        obtain ⟨rfl, rfl⟩ := heq
        refine ⟨by simp, rfl, ?_⟩
        cases l with
        | nil =>
          refine Or.inl ⟨rfl, ?_⟩
          intro y hy
          rw [inord_node] at hy
          rcases List.mem_append.mp hy with hml | hmr
          · rw [inord, inordC] at hml
            exact absurd hml (by simp)
          · rcases List.mem_cons.mp hmr with heq' | hyr
            · exact heq' ▸ (lt_irrefl d)
            · exact not_lt_of_gt (hbr y hyr)
        | node ll ld lc lh lr =>
          obtain ⟨sl, sd, sc, sh, hmeq⟩ := mavlMaxNode_shape lr ll ld lc lh
          obtain ⟨hmem, hmax⟩ := mavlMaxNode_max _ hordl sl sd sc sh hmeq
          refine Or.inr ⟨sd, ?_, ?_, hbl sd hmem, ?_⟩
          · show dataOf (mavlMaxNode (.node ll ld lc lh lr)) = some sd
            rw [hmeq]
            rfl
          · rw [inord_node]
            exact List.mem_append.mpr (Or.inl hmem)
          · intro y hy hyx
            rw [inord_node] at hy
            rcases List.mem_append.mp hy with hml | hmr
            · exact hmax y hml
            · rcases List.mem_cons.mp hmr with heq' | hyr
              · exact absurd (heq' ▸ hyx) (lt_irrefl d)
              · exact absurd hyx (not_lt_of_gt (hbr y hyr))

/-- Mirror of findPath_pred_below: the successor value the located
node supports is the least key of the subtree above the sought key when
one exists, and the ascent of the incoming accumulator otherwise. -/
theorem findPath_succ_above {α : Type} [LinearOrder α]
    {cmp : α → α → Int} (hc : ValidCmp cmp) (x : α) :
    ∀ t : MTree α, ordb t = true → x ∈ inord t →
      ∀ (acc path : List (α × Dir)) (fnd : MTree α),
        mavlFindPath cmp t x acc = (path, fnd) →
        fnd ≠ .nil ∧ dataOf fnd = some x ∧
          ((succPart fnd path = ascendSucc acc ∧
              ∀ y ∈ inord t, ¬x < y) ∨
            (∃ s, succPart fnd path = some s ∧ s ∈ inord t ∧ x < s ∧
              ∀ y ∈ inord t, x < y → s ≤ y)) := by
  intro t
  induction t with
  | nil =>
    intro hord hx acc path fnd heq
    rw [inord, inordC] at hx
    exact absurd hx (by simp)
  | node l d c h r ihl ihr =>
    intro hord hx acc path fnd heq
    rw [ordb_node_iff] at hord
    obtain ⟨hordl, hordr, hbl, hbr⟩ := hord
    rw [inord_node] at hx
    by_cases hle : cmp d x ≤ -1
    · have hdx : d < x := (hc.le_neg d x) ▸ hle
      have hxr : x ∈ inord r := by
        rcases List.mem_append.mp hx with hml | hmr
        · exact absurd hdx (not_lt_of_gt (hbl x hml))
        · rcases List.mem_cons.mp hmr with heq' | hyr
          · exact absurd (heq' ▸ hdx) (lt_irrefl x)
          · exact hyr
      rw [mavlFindPath, if_pos hle] at heq
      obtain ⟨hne, hdata, hdisj⟩ :=
        ihr hordr hxr ((d, .right) :: acc) path fnd heq
      refine ⟨hne, hdata, ?_⟩
      rcases hdisj with ⟨hsv, hnoa⟩ | ⟨s, hsv, hsm, hxs, hbound⟩
      · refine Or.inl ⟨by rw [hsv]; rfl, ?_⟩
        intro y hy
        rw [inord_node] at hy
        rcases List.mem_append.mp hy with hml | hmr
        · exact not_lt_of_gt (lt_trans (hbl y hml) hdx)
        · rcases List.mem_cons.mp hmr with heq' | hyr
          · exact heq' ▸ (not_lt_of_gt hdx)
          · exact hnoa y hyr
      · refine Or.inr ⟨s, hsv, ?_, hxs, ?_⟩
        · rw [inord_node]
          exact List.mem_append.mpr (Or.inr (List.mem_cons.mpr (Or.inr hsm)))
        · intro y hy hxy
          rw [inord_node] at hy
          rcases List.mem_append.mp hy with hml | hmr
          · exact absurd (lt_trans hdx hxy) (not_lt_of_gt (hbl y hml))
          · rcases List.mem_cons.mp hmr with heq' | hyr
            · exact absurd (heq' ▸ hxy) (not_lt_of_gt hdx)
            · exact hbound y hyr hxy
    · by_cases hge : 1 ≤ cmp d x
      · have hxd : x < d := (hc.ge_pos d x) ▸ hge
        have hxl : x ∈ inord l := by
          rcases List.mem_append.mp hx with hml | hmr
          · exact hml
          · rcases List.mem_cons.mp hmr with heq' | hyr
            · exact absurd (heq' ▸ hxd) (lt_irrefl x)
            · exact absurd hxd (not_lt_of_gt (hbr x hyr))
        rw [mavlFindPath, if_neg hle, if_pos hge] at heq
        obtain ⟨hne, hdata, hdisj⟩ :=
          ihl hordl hxl ((d, .left) :: acc) path fnd heq
        refine ⟨hne, hdata, Or.inr ?_⟩
        rcases hdisj with ⟨hsv, hnoa⟩ | ⟨s, hsv, hsm, hxs, hbound⟩
        · refine ⟨d, by rw [hsv]; rfl, ?_, hxd, ?_⟩
          · rw [inord_node]
            exact List.mem_append.mpr (Or.inr (List.mem_cons_self _ _))
          · intro y hy hxy
            rw [inord_node] at hy
            rcases List.mem_append.mp hy with hml | hmr
            · exact absurd hxy (hnoa y hml)
            · rcases List.mem_cons.mp hmr with heq' | hyr
              · exact le_of_eq heq'.symm
              · exact le_of_lt (hbr y hyr)
        · have hsd : s < d := hbl s hsm
          refine ⟨s, hsv, ?_, hxs, ?_⟩
          · rw [inord_node]
            exact List.mem_append.mpr (Or.inl hsm)
          · intro y hy hxy
            rw [inord_node] at hy
            rcases List.mem_append.mp hy with hml | hmr
            · exact hbound y hml hxy
            · rcases List.mem_cons.mp hmr with heq' | hyr
              · exact le_of_lt (heq' ▸ hsd)
              · exact le_of_lt (lt_trans hsd (hbr y hyr))
      · have hdx : d = x := hc.eq_of_mid hle hge
        subst hdx
        rw [mavlFindPath, if_neg hle, if_neg hge] at heq
        simp only [Prod.mk.injEq] at heq
        obtain ⟨rfl, rfl⟩ := heq
        refine ⟨by simp, rfl, ?_⟩
        cases r with
        | nil =>
          refine Or.inl ⟨rfl, ?_⟩
          intro y hy
          rw [inord_node] at hy
          rcases List.mem_append.mp hy with hml | hmr
          · exact not_lt_of_gt (hbl y hml)
          · rcases List.mem_cons.mp hmr with heq' | hyr
            · exact heq' ▸ (lt_irrefl d)
            · rw [inord, inordC] at hyr
              exact absurd hyr (by simp)
        | node rl rd rc rh rr =>
          obtain ⟨sd, sc, sh, sr, hmeq⟩ := mavlMinNode_shape rl rd rc rh rr
          obtain ⟨hmem, hmin⟩ := mavlMinNode_min _ hordr sd sc sh sr hmeq
          refine Or.inr ⟨sd, ?_, ?_, hbr sd hmem, ?_⟩
          · show dataOf (mavlMinNode (.node rl rd rc rh rr)) = some sd
            rw [hmeq]
            rfl
          · rw [inord_node]
            exact List.mem_append.mpr (Or.inr (List.mem_cons.mpr (Or.inr hmem)))
          · intro y hy hxy
            rw [inord_node] at hy
            rcases List.mem_append.mp hy with hml | hmr
            · exact absurd hxy (not_lt_of_gt (hbl y hml))
            · rcases List.mem_cons.mp hmr with heq' | hyr
              · exact absurd (heq' ▸ hxy) (lt_irrefl d)
              · exact hmin y hyr

/-- mavl_pred's result once the recording descent located a node. -/
theorem mavlPred_eval {α : Type} (cmp : α → α → Int) (t : MTree α)
    (x : α) (path : List (α × Dir)) (l : MTree α) (d : α) (c h : Nat)
    (r : MTree α)
    (hfp : mavlFindPath cmp t x [] = (path, .node l d c h r)) :
    mavlPred cmp t x = (.M_OK, predPart (.node l d c h r) path) := by
  simp only [mavlPred, hfp]
  cases l <;> rfl

/-- mavl_succ's result once the recording descent located a node. -/
theorem mavlSucc_eval {α : Type} (cmp : α → α → Int) (t : MTree α)
    (x : α) (path : List (α × Dir)) (l : MTree α) (d : α) (c h : Nat)
    (r : MTree α)
    (hfp : mavlFindPath cmp t x [] = (path, .node l d c h r)) :
    mavlSucc cmp t x = (.M_OK, succPart (.node l d c h r) path) := by
  simp only [mavlSucc, hfp]
  cases r <;> rfl

/-- Claim C7, amended: for every present key k whose strict
predecessor p exists in the tree, mavl_pred on k succeeds with p and
mavl_succ on p succeeds with k; but for the globally minimum
(respectively maximum) key the code does not report absence — it
returns M_OK with the nil sentinel's indeterminate data (see the
counterexample on the minimum). -/
theorem pred_succ_pairing {α : Type} [LinearOrder α]
    {cmp : α → α → Int} (hc : ValidCmp cmp) (t : MTree α)
    (hord : ordb t = true) (k p : α) (hk : k ∈ inord t)
    (hp : p ∈ inord t) (hpk : p < k)
    (hmax : ∀ y ∈ inord t, y < k → y ≤ p) :
    mavlPred cmp t k = (.M_OK, some p) ∧
      mavlSucc cmp t p = (.M_OK, some k) := by
  constructor
  · rcases hfp : mavlFindPath cmp t k [] with ⟨path, fnd⟩
    obtain ⟨hne, hdata, hdisj⟩ :=
      findPath_pred_below hc k t hord hk [] path fnd hfp
    rcases fnd with _ | ⟨l, d, c, h, r⟩
    · exact absurd rfl hne
    · rw [mavlPred_eval cmp t k path l d c h r hfp]
      rcases hdisj with ⟨-, hnob⟩ | ⟨p', hpv, hpm, hpx, hbound⟩
      · exact absurd hpk (hnob p hp)
      · have hpp : p' = p :=
          le_antisymm (hmax p' hpm hpx) (hbound p hp hpk)
        rw [hpv, hpp]
  · rcases hfp : mavlFindPath cmp t p [] with ⟨path, fnd⟩
    obtain ⟨hne, hdata, hdisj⟩ :=
      findPath_succ_above hc p t hord hp [] path fnd hfp
    rcases fnd with _ | ⟨l, d, c, h, r⟩
    · exact absurd rfl hne
    · rw [mavlSucc_eval cmp t p path l d c h r hfp]
      rcases hdisj with ⟨-, hnoa⟩ | ⟨s, hsv, hsm, hps, hbound⟩
      · exact absurd hpk (hnoa k hk)
      · have hsk : s = k := by
          refine le_antisymm (hbound k hk hpk) ?_
          by_contra hlt
          exact absurd hps (not_lt_of_ge (hmax s hsm (lt_of_not_ge hlt)))
        rw [hsv, hsk]

/-- Witness for C7 at a concrete input: in the tree of 2, 1, 3 the
predecessor of 2 is 1 and the successor of 1 is 2. -/
theorem pred_succ_pairing_witness :
    ordb (mavlRun intCmp
      [.push 2 true, .push 1 true, .push 3 true]).root = true ∧
      mavlPred intCmp (mavlRun intCmp
        [.push 2 true, .push 1 true, .push 3 true]).root 2 =
        (.M_OK, some 1) ∧
      mavlSucc intCmp (mavlRun intCmp
        [.push 2 true, .push 1 true, .push 3 true]).root 1 =
        (.M_OK, some 2) := by
  have h := pred_succ_pairing intCmp_valid
    (mavlRun intCmp [.push 2 true, .push 1 true, .push 3 true]).root
    (by decide) 2 1 (by decide) (by decide) (by decide) (by decide)
  exact ⟨by decide, h.1, h.2⟩

/-- Every entry of the recorded ancestor chain is a key of the tree. -/
theorem ancList_subset {α : Type} (cmp : α → α → Int) :
    ∀ t : MTree α, ∀ x y, y ∈ ancList cmp t x → y ∈ inord t := by
  intro t
  induction t with
  | nil =>
    intro x y hy
    rw [ancList] at hy
    exact absurd hy (by simp)
  | node l d c h r ihl ihr =>
    intro x y hy
    rw [ancList] at hy
    rw [inord_node]
    by_cases h1 : cmp d x ≤ -1
    · rw [if_pos h1] at hy
      rcases List.mem_cons.mp hy with rfl | hy'
      · exact List.mem_append.mpr (Or.inr (List.mem_cons_self _ _))
      · exact List.mem_append.mpr
          (Or.inr (List.mem_cons.mpr (Or.inr (ihr x y hy'))))
    · rw [if_neg h1] at hy
      by_cases h2 : 1 ≤ cmp d x
      · rw [if_pos h2] at hy
        rcases List.mem_cons.mp hy with rfl | hy'
        · exact List.mem_append.mpr (Or.inr (List.mem_cons_self _ _))
        · exact List.mem_append.mpr (Or.inl (ihl x y hy'))
      · rw [if_neg h2] at hy
        rcases List.mem_cons.mp hy with rfl | hy'
        · exact List.mem_append.mpr (Or.inr (List.mem_cons_self _ _))
        · exact absurd hy' (by simp)

/-- The root is on every ancestor chain of a nonempty tree. -/
theorem ancList_node_head {α : Type} (cmp : α → α → Int) (l : MTree α)
    (d : α) (c h : Nat) (r : MTree α) (x : α) :
    d ∈ ancList cmp (.node l d c h r) x := by
  rw [ancList]
  split_ifs <;> simp

/-- Appending a head keeps a list's known last element. -/
theorem getLast_cons_of_some {α : Type} (d z : α) :
    ∀ xs : List α, xs.getLast? = some z → (d :: xs).getLast? = some z := by
  intro xs hxs
  cases xs with
  | nil => exact absurd hxs (by simp)
  | cons x0 xs' => rw [List.getLast?_cons_cons]; exact hxs

/-- On an ordered tree holding both keys, the lca descent loop stops
with M_OK on the deepest node that is on both recorded ancestor chains
— the reference ancestor-intersection answer. -/
theorem mavlLcaLoop_ref {α : Type} [LinearOrder α] {cmp : α → α → Int}
    (hc : ValidCmp cmp) (a b : α) :
    ∀ t : MTree α, ordb t = true → a ∈ inord t → b ∈ inord t →
      ∃ z, mavlLcaLoop cmp a b t = (.M_OK, some z) ∧
        ((ancList cmp t a).filter
          (fun y => y ∈ ancList cmp t b)).getLast? = some z := by
  intro t
  induction t with
  | nil =>
    intro _ ha _
    rw [inord, inordC] at ha
    exact absurd ha (by simp)
  | node l d c h r ihl ihr =>
    intro hord ha hb
    rw [ordb_node_iff] at hord
    obtain ⟨hordl, hordr, hbl, hbr⟩ := hord
    rw [inord_node] at ha hb
    by_cases hcase1 : 1 ≤ cmp d a ∧ 1 ≤ cmp d b
    · obtain ⟨hga, hgb⟩ := hcase1
      have had : a < d := (hc.ge_pos d a) ▸ hga
      have hbd : b < d := (hc.ge_pos d b) ▸ hgb
      have hal : a ∈ inord l := by
        rcases List.mem_append.mp ha with hml | hmr
        · exact hml
        · rcases List.mem_cons.mp hmr with heq' | hyr
          · exact absurd (heq' ▸ had) (lt_irrefl a)
          · exact absurd had (not_lt_of_gt (hbr a hyr))
      have hbl' : b ∈ inord l := by
        rcases List.mem_append.mp hb with hml | hmr
        · exact hml
        · rcases List.mem_cons.mp hmr with heq' | hyr
          · exact absurd (heq' ▸ hbd) (lt_irrefl b)
          · exact absurd hbd (not_lt_of_gt (hbr b hyr))
      obtain ⟨z, hloop, href⟩ := ihl hordl hal hbl'
      have hna : ¬cmp d a ≤ -1 := cmp_not_both hga
      have hnb : ¬cmp d b ≤ -1 := cmp_not_both hgb
      have hLa : ancList cmp (.node l d c h r) a = d :: ancList cmp l a := by
        rw [ancList, if_neg hna, if_pos hga]
      have hLb : ancList cmp (.node l d c h r) b = d :: ancList cmp l b := by
        rw [ancList, if_neg hnb, if_pos hgb]
      refine ⟨z, ?_, ?_⟩
      · rw [mavlLcaLoop, if_pos ⟨hga, hgb⟩]
        exact hloop
      · rw [hLa, hLb]
        have hstep : (d :: ancList cmp l a).filter
            (fun y => y ∈ d :: ancList cmp l b) =
            d :: (ancList cmp l a).filter
              (fun y => y ∈ d :: ancList cmp l b) := by
          simp [List.filter_cons]
        rw [hstep]
        have hcong : (ancList cmp l a).filter
            (fun y => y ∈ d :: ancList cmp l b) =
            (ancList cmp l a).filter
              (fun y => y ∈ ancList cmp l b) := by
          refine List.filter_congr ?_
          intro y hy
          have hyl : y ∈ inord l := ancList_subset cmp l a y hy
          have hyd : y ≠ d := ne_of_lt (hbl y hyl)
          simp [List.mem_cons, hyd]
        rw [hcong]
        exact getLast_cons_of_some d z _ href
    · by_cases hcase2 : cmp d a ≤ -1 ∧ cmp d b ≤ -1
      · obtain ⟨hla, hlb⟩ := hcase2
        have hda : d < a := (hc.le_neg d a) ▸ hla
        have hdb : d < b := (hc.le_neg d b) ▸ hlb
        have har : a ∈ inord r := by
          rcases List.mem_append.mp ha with hml | hmr
          · exact absurd hda (not_lt_of_gt (hbl a hml))
          · rcases List.mem_cons.mp hmr with heq' | hyr
            · exact absurd (heq' ▸ hda) (lt_irrefl a)
            · exact hyr
        have hbr' : b ∈ inord r := by
          rcases List.mem_append.mp hb with hml | hmr
          · exact absurd hdb (not_lt_of_gt (hbl b hml))
          · rcases List.mem_cons.mp hmr with heq' | hyr
            · exact absurd (heq' ▸ hdb) (lt_irrefl b)
            · exact hyr
        obtain ⟨z, hloop, href⟩ := ihr hordr har hbr'
        have hLa : ancList cmp (.node l d c h r) a =
            d :: ancList cmp r a := by
          rw [ancList, if_pos hla]
        have hLb : ancList cmp (.node l d c h r) b =
            d :: ancList cmp r b := by
          rw [ancList, if_pos hlb]
        refine ⟨z, ?_, ?_⟩
        · have hn1 : ¬(1 ≤ cmp d a ∧ 1 ≤ cmp d b) := by
            rintro ⟨h', -⟩
            omega
          rw [mavlLcaLoop, if_neg hn1, if_pos ⟨hla, hlb⟩]
          exact hloop
        · rw [hLa, hLb]
          have hstep : (d :: ancList cmp r a).filter
              (fun y => y ∈ d :: ancList cmp r b) =
              d :: (ancList cmp r a).filter
                (fun y => y ∈ d :: ancList cmp r b) := by
            simp [List.filter_cons]
          rw [hstep]
          have hcong : (ancList cmp r a).filter
              (fun y => y ∈ d :: ancList cmp r b) =
              (ancList cmp r a).filter
                (fun y => y ∈ ancList cmp r b) := by
            refine List.filter_congr ?_
            intro y hy
            have hyr : y ∈ inord r := ancList_subset cmp r a y hy
            have hyd : y ≠ d := ne_of_gt (hbr y hyr)
            simp [List.mem_cons, hyd]
          rw [hcong]
          exact getLast_cons_of_some d z _ href
      · refine ⟨d, ?_, ?_⟩
        · rw [mavlLcaLoop, if_neg hcase1, if_neg hcase2]
        · have hfilter : (ancList cmp (.node l d c h r) a).filter
              (fun y => y ∈ ancList cmp (.node l d c h r) b) = [d] := by
            by_cases h1a : cmp d a ≤ -1
            · have hnb : ¬cmp d b ≤ -1 := fun hb' => hcase2 ⟨h1a, hb'⟩
              have hLa : ancList cmp (.node l d c h r) a =
                  d :: ancList cmp r a := by
                rw [ancList, if_pos h1a]
              rw [hLa]
              have hstep : (d :: ancList cmp r a).filter
                  (fun y => y ∈ ancList cmp (.node l d c h r) b) =
                  d :: (ancList cmp r a).filter
                    (fun y => y ∈ ancList cmp (.node l d c h r) b) := by
                simp [List.filter_cons, ancList_node_head]
              rw [hstep]
              have hfl : (ancList cmp r a).filter
                  (fun y => y ∈ ancList cmp (.node l d c h r) b) = [] := by
                refine List.filter_eq_nil.mpr ?_
                intro y hy
                have hyr : y ∈ inord r := ancList_subset cmp r a y hy
                have hdy : d < y := hbr y hyr
                simp only [decide_eq_true_eq]
                intro hymem
                rw [ancList, if_neg hnb] at hymem
                by_cases h2b : 1 ≤ cmp d b
                · rw [if_pos h2b] at hymem
                  rcases List.mem_cons.mp hymem with rfl | hy'
                  · exact absurd hdy (lt_irrefl y)
                  · exact absurd hdy
                      (not_lt_of_gt (hbl y (ancList_subset cmp l b y hy')))
                · rw [if_neg h2b] at hymem
                  rcases List.mem_cons.mp hymem with rfl | hy'
                  · exact absurd hdy (lt_irrefl y)
                  · exact absurd hy' (by simp)
              rw [hfl]
            · by_cases h2a : 1 ≤ cmp d a
              · have hnb2 : ¬1 ≤ cmp d b := fun hb' => hcase1 ⟨h2a, hb'⟩
                have hLa : ancList cmp (.node l d c h r) a =
                    d :: ancList cmp l a := by
                  rw [ancList, if_neg h1a, if_pos h2a]
                rw [hLa]
                have hstep : (d :: ancList cmp l a).filter
                    (fun y => y ∈ ancList cmp (.node l d c h r) b) =
                    d :: (ancList cmp l a).filter
                      (fun y => y ∈ ancList cmp (.node l d c h r) b) := by
                  simp [List.filter_cons, ancList_node_head]
                rw [hstep]
                have hfl : (ancList cmp l a).filter
                    (fun y => y ∈ ancList cmp (.node l d c h r) b) = [] := by
                  refine List.filter_eq_nil.mpr ?_
                  intro y hy
                  have hyl : y ∈ inord l := ancList_subset cmp l a y hy
                  have hyd : y < d := hbl y hyl
                  simp only [decide_eq_true_eq]
                  intro hymem
                  rw [ancList] at hymem
                  by_cases h1b : cmp d b ≤ -1
                  · rw [if_pos h1b] at hymem
                    rcases List.mem_cons.mp hymem with rfl | hy'
                    · exact absurd hyd (lt_irrefl y)
                    · exact absurd hyd
                        (not_lt_of_gt (hbr y (ancList_subset cmp r b y hy')))
                  · rw [if_neg h1b, if_neg hnb2] at hymem
                    rcases List.mem_cons.mp hymem with rfl | hy'
                    · exact absurd hyd (lt_irrefl y)
                    · exact absurd hy' (by simp)
                rw [hfl]
              · have hLa : ancList cmp (.node l d c h r) a = [d] := by
                  rw [ancList, if_neg h1a, if_neg h2a]
                rw [hLa]
                have hstep : ([d] : List α).filter
                    (fun y => y ∈ ancList cmp (.node l d c h r) b) =
                    [d] := by
                  simp [List.filter_cons, ancList_node_head]
                rw [hstep]
          rw [hfilter]
          rfl

/-- The lca descent with both arguments the same present key stops on
that key's node. -/
theorem mavlLcaLoop_self {α : Type} [LinearOrder α]
    {cmp : α → α → Int} (hc : ValidCmp cmp) (a : α) :
    ∀ t : MTree α, ordb t = true → a ∈ inord t →
      mavlLcaLoop cmp a a t = (.M_OK, some a) := by
  intro t
  induction t with
  | nil =>
    intro _ ha
    rw [inord, inordC] at ha
    exact absurd ha (by simp)
  | node l d c h r ihl ihr =>
    intro hord ha
    rw [ordb_node_iff] at hord
    obtain ⟨hordl, hordr, hbl, hbr⟩ := hord
    rw [inord_node] at ha
    by_cases h2a : 1 ≤ cmp d a
    · have had : a < d := (hc.ge_pos d a) ▸ h2a
      have hal : a ∈ inord l := by
        rcases List.mem_append.mp ha with hml | hmr
        · exact hml
        · rcases List.mem_cons.mp hmr with heq' | hyr
          · exact absurd (heq' ▸ had) (lt_irrefl a)
          · exact absurd had (not_lt_of_gt (hbr a hyr))
      rw [mavlLcaLoop, if_pos ⟨h2a, h2a⟩]
      exact ihl hordl hal
    · by_cases h1a : cmp d a ≤ -1
      · have hda : d < a := (hc.le_neg d a) ▸ h1a
        have har : a ∈ inord r := by
          rcases List.mem_append.mp ha with hml | hmr
          · exact absurd hda (not_lt_of_gt (hbl a hml))
          · rcases List.mem_cons.mp hmr with heq' | hyr
            · exact absurd (heq' ▸ hda) (lt_irrefl a)
            · exact hyr
        rw [mavlLcaLoop, if_neg (fun h' => h2a h'.1), if_pos ⟨h1a, h1a⟩]
        exact ihr hordr har
      · have hda : d = a := hc.eq_of_mid h1a h2a
        rw [mavlLcaLoop, if_neg (fun h' => h2a h'.1),
          if_neg (fun h' => h1a h'.1), hda]

/-- Claim C8: mavl_lca fails with M_INVALID_INPUT exactly when at
least one key is absent; with both keys present it returns M_OK with
the payload the reference ancestor-chain intersection selects (the
deepest common ancestor), the lca of a present key with itself is that
key, and the defensive M_UNDEFINED_BEHAVIOUR branch for the descent
falling off the tree is never taken on an ordered tree. -/
theorem lca_matches_reference {α : Type} [LinearOrder α]
    {cmp : α → α → Int} (hc : ValidCmp cmp) (t : MTree α)
    (hord : ordb t = true) (a b : α) :
    ((mavlLca cmp t a b).1 = .M_INVALID_INPUT ↔
        (a ∉ inord t ∨ b ∉ inord t)) ∧
      (a ∈ inord t → b ∈ inord t →
        mavlLca cmp t a b = (.M_OK, lcaRef cmp t a b)) ∧
      (a ∈ inord t → mavlLca cmp t a a = (.M_OK, some a)) ∧
      (mavlLca cmp t a b).1 ≠ .M_UNDEFINED_BEHAVIOUR := by
  refine ⟨⟨?_, ?_⟩, ?_, ?_, ?_⟩
  · intro hcode
    by_contra hno
    rw [not_or, not_not, not_not] at hno
    obtain ⟨ha, hb⟩ := hno
    have hne : ¬(mavlFindNode cmp t a = .nil ∨
        mavlFindNode cmp t b = .nil) := by
      rintro (h' | h')
      · exact absurd h' (mavlFindNode_ne_nil_of_mem hc a t hord ha)
      · exact absurd h' (mavlFindNode_ne_nil_of_mem hc b t hord hb)
    rw [mavlLca, if_neg hne] at hcode
    obtain ⟨z, hloop, -⟩ := mavlLcaLoop_ref hc a b t hord ha hb
    rw [hloop] at hcode
    exact absurd hcode (by simp)
  · intro habs
    have h' : mavlFindNode cmp t a = .nil ∨
        mavlFindNode cmp t b = .nil := by
      rcases habs with h' | h'
      · exact Or.inl (Classical.byContradiction
          (fun hne => h' (mavlFindNode_mem hc a t hne)))
      · exact Or.inr (Classical.byContradiction
          (fun hne => h' (mavlFindNode_mem hc b t hne)))
    rw [mavlLca, if_pos h']
  · intro ha hb
    have hne : ¬(mavlFindNode cmp t a = .nil ∨
        mavlFindNode cmp t b = .nil) := by
      rintro (h' | h')
      · exact absurd h' (mavlFindNode_ne_nil_of_mem hc a t hord ha)
      · exact absurd h' (mavlFindNode_ne_nil_of_mem hc b t hord hb)
    rw [mavlLca, if_neg hne]
    obtain ⟨z, hloop, href⟩ := mavlLcaLoop_ref hc a b t hord ha hb
    rw [hloop, lcaRef, href]
  · intro ha
    have hne : ¬(mavlFindNode cmp t a = .nil ∨
        mavlFindNode cmp t a = .nil) := by
      rw [or_self]
      exact mavlFindNode_ne_nil_of_mem hc a t hord ha
    rw [mavlLca, if_neg hne]
    exact mavlLcaLoop_self hc a t hord ha
  · by_cases habs : mavlFindNode cmp t a = .nil ∨
        mavlFindNode cmp t b = .nil
    · rw [mavlLca, if_pos habs]
      simp
    · rw [mavlLca, if_neg habs]
      rw [not_or] at habs
      have ha : a ∈ inord t := mavlFindNode_mem hc a t habs.1
      have hb : b ∈ inord t := mavlFindNode_mem hc b t habs.2
      obtain ⟨z, hloop, -⟩ := mavlLcaLoop_ref hc a b t hord ha hb
      rw [hloop]
      simp

/-- Witness for C8 at concrete inputs: in the tree of 2, 1, 3 the lca
of 1 and 3 agrees with the reference (the root 2) and the lca of 1
with itself is 1. -/
theorem lca_matches_reference_witness :
    ordb (mavlRun intCmp
      [.push 2 true, .push 1 true, .push 3 true]).root = true ∧
      lcaRef intCmp (mavlRun intCmp
        [.push 2 true, .push 1 true, .push 3 true]).root 1 3 = some 2 ∧
      mavlLca intCmp (mavlRun intCmp
        [.push 2 true, .push 1 true, .push 3 true]).root 1 3 =
        (.M_OK, lcaRef intCmp (mavlRun intCmp
          [.push 2 true, .push 1 true, .push 3 true]).root 1 3) ∧
      mavlLca intCmp (mavlRun intCmp
        [.push 2 true, .push 1 true, .push 3 true]).root 1 1 =
        (.M_OK, some 1) := by
  have h := lca_matches_reference intCmp_valid
    (mavlRun intCmp [.push 2 true, .push 1 true, .push 3 true]).root
    (by decide) 1 3
  exact ⟨by decide, by decide, h.2.1 (by decide) (by decide),
    h.2.2.1 (by decide)⟩

/-- C10: for every non-null tree and non-null accumulator, mavl_min and
mavl_max always return M_OK, even when the key is absent or the tree is
empty; in those cases the accumulator receives the nil sentinel's
indeterminate payload (modelled none) rather than any stored key. -/
theorem mavl_min_max_always_ok {α : Type} (cmp : α → α → Int)
    (t : MTree α) (x : α) :
    (mavlMin cmp t x).1 = .M_OK ∧ (mavlMax cmp t x).1 = .M_OK ∧
      (mavlFindNode cmp t x = .nil →
        (mavlMin cmp t x).2 = none ∧ (mavlMax cmp t x).2 = none) := by
  refine ⟨rfl, rfl, fun habs => ?_⟩
  rw [mavlMin, mavlMax, habs]
  exact ⟨rfl, rfl⟩

/-- Witness for C10 at a concrete input: looking up the minimum from the
absent key 9 in the one-key tree succeeds with M_OK and delivers the
sentinel payload. -/
theorem mavl_min_max_always_ok_witness :
    mavlFindNode intCmp witTree1.root 9 = .nil ∧
      (mavlMin intCmp witTree1.root 9).1 = .M_OK ∧
      (mavlMin intCmp witTree1.root 9).2 = none := by
  refine ⟨by decide, (mavl_min_max_always_ok intCmp witTree1.root 9).1, ?_⟩
  exact ((mavl_min_max_always_ok intCmp witTree1.root 9).2.2 (by decide)).1

/-- C5 counterexample: a duplicate insert and a fresh insert return the
same code M_OK, so the caller cannot distinguish them; the duplicate
insert did take the count-increment path (count becomes 2). -/
theorem dup_insert_code_not_distinct :
    (mavlPush intCmp true witTree1 5).2 = .M_OK ∧
      (mavlPush intCmp true mavlNew 5).2 = .M_OK ∧
      (mavlPush intCmp true witTree1 5).1.root =
        .node .nil (5 : Int) 2 1 .nil := by
  decide

/-- C5 amended: inserting a key an equal node already holds increments
that node's uint32_t count in place modulo 2 ^ 32 (so a count of
2 ^ 32 - 1 wraps to 0), changes nothing else of the tree (no new node,
no fixup, no height change, size unchanged), and returns M_OK — the
same code a fresh insertion returns, not a distinct variant.  The
second conjunct makes the wrap explicit at the equal node. -/
theorem dup_insert_bumps_count {α : Type} (cmp : α → α → Int) (ok : Bool)
    (self : MAvl α) (x : α)
    (hfound : mavlFindNode cmp self.root x ≠ .nil) :
    mavlPush cmp ok self x =
      (⟨bumpCount cmp x self.root, self.size⟩, .M_OK) ∧
      ∀ (l : MTree α) (d : α) (c h : Nat) (r : MTree α),
        ¬1 ≤ cmp d x → ¬cmp d x ≤ -1 →
        bumpCount cmp x (.node l d c h r) =
          .node l d ((c + 1) % 2 ^ 32) h r := by
  constructor
  · rw [mavlPush, mavlPushGo_found cmp ok x self.root hfound]
  · intro l d c h r hge hle
    rw [bumpCount, if_neg hge, if_neg hle]

/-- Witness for the amended C5 at concrete inputs, exercising the wrap
conjunct at the saturated count 2 ^ 32 - 1, which becomes 0. -/
theorem dup_insert_bumps_count_witness :
    mavlFindNode intCmp witTree1.root 5 ≠ .nil ∧
      mavlPush intCmp true witTree1 5 =
        (⟨bumpCount intCmp 5 witTree1.root, witTree1.size⟩, .M_OK) ∧
      bumpCount intCmp 5 (.node .nil (5 : Int) (2 ^ 32 - 1) 1 .nil) =
        .node .nil (5 : Int) 0 1 .nil := by
  have h := dup_insert_bumps_count intCmp true witTree1 5 (by decide)
  refine ⟨by decide, h.1, ?_⟩
  rw [h.2 .nil 5 (2 ^ 32 - 1) 1 .nil (by decide) (by decide)]
  norm_num

/-- C4 counterexample: deleting the absent key 7 from a non-empty tree
returns M_INVALID_INPUT, which is a different code from M_NOT_FOUND, so
the deletion does not return the not-found error the claim states. -/
theorem pop_absent_not_notfound :
    (mavlPop intCmp witTree1 7).2 = .M_INVALID_INPUT ∧
      Merr.M_INVALID_INPUT ≠ Merr.M_NOT_FOUND := by
  decide

/-- C4 amended: deleting from a tree whose root is absent returns
M_POP_FROM_EMPTY, and deleting a key absent from a non-empty tree
returns M_INVALID_INPUT (the invalid-input kind, not M_NOT_FOUND); in
both failure cases the returned tree is exactly the input tree. -/
theorem pop_failure_codes {α : Type} (cmp : α → α → Int) (self : MAvl α)
    (x : α) :
    (self.root = .nil → mavlPop cmp self x = (self, .M_POP_FROM_EMPTY)) ∧
      (self.root ≠ .nil → mavlFindNode cmp self.root x = .nil →
        mavlPop cmp self x = (self, .M_INVALID_INPUT)) := by
  constructor
  · intro hroot
    rw [mavlPop]
    split
    · rfl
    · rename_i l d c h r heq
      rw [heq] at hroot
      exact absurd hroot (by simp)
  · intro hroot hfind
    rw [mavlPop]
    split
    · rename_i heq
      exact absurd heq hroot
    · rename_i l d c h r heq
      rw [← heq, (mavlPopGo_eq_none cmp x self.root).mpr hfind]

/-- Witness for the amended C4 at concrete inputs: popping from the
empty tree and popping the absent key 7 from the one-key tree. -/
theorem pop_failure_codes_witness :
    mavlPop intCmp (mavlNew (α := Int)) 7 =
        (mavlNew, .M_POP_FROM_EMPTY) ∧
      mavlPop intCmp witTree1 7 = (witTree1, .M_INVALID_INPUT) := by
  refine ⟨(pop_failure_codes intCmp mavlNew 7).1 (by decide), ?_⟩
  exact (pop_failure_codes intCmp witTree1 7).2 (by decide) (by decide)

/-- C6: evaluating avl_insert of the scl variant at the failing input —
inserting the key 5 into the empty tree while the payload allocation
fails — returns the success code 0 and leaves a node with an absent
(NULL) payload visible in the tree, contradicting the claim that a
failed allocation surfaces allocation_failed with the tree unchanged. -/
theorem scl_insert_payload_alloc_bug :
    avl_insert intCmp true false ⟨.nil, 0⟩ (5 : Int) =
        (⟨.node .nil none 1 1 .nil, 1⟩, 0) ∧
      sclHasAbsentPayload
        (avl_insert intCmp true false ⟨.nil, 0⟩ (5 : Int)).1.root = true := by
  decide

/-- C7 counterexample: 5 is the global minimum of the one-key tree, yet
mavl_pred returns the success code M_OK — with the nil sentinel's
indeterminate payload in the accumulator — instead of reporting the
predecessor absent. -/
theorem pred_of_min_returns_ok :
    (mavlPred intCmp witTree1.root 5).1 = .M_OK ∧
      (mavlPred intCmp witTree1.root 5).2 = none ∧
      witTree1.root = .node .nil (5 : Int) 1 1 .nil := by
  decide

end CLangDS
